import Mathlib

/-!
Verification development for the hypher hyphenation crate.

The definitions below are a shallow embedding of the three source files:

* `src/lib.rs` — the runtime hyphenator (`hyphenate_bounded`, `lowercase_and_dot`,
  `char_to_byte_bounds`, the `Syllables` iterator and the `Bytes` storage);
* `src/trie.rs` — the build-time trie (`TrieBuilder::insert`, the level-table
  interner, `TrieBuilder::compress`, and the address arithmetic of
  `TrieBuilder::encode`);
* `src/tex.rs` — the TeX pattern scanner (`parse`).

Words are lists of Unicode code points (`Nat`); byte strings are lists of
byte values (`Nat`).  The per-language automaton that `lib.rs` reads from the
embedded blob is abstracted as an `Automaton` record (root state, transition
function, level entries of a state); the build-time trie of `trie.rs`
instantiates it.  The Unicode lowercase table of `char::to_lowercase` lives in
the Rust standard library, outside this repository, so it is a parameter
`lower : Nat → List Nat` of the definitions that use it.
-/

/-! ### UTF-8, from the semantics of `str` used by `lib.rs` -/

/-- Byte length of the UTF-8 encoding of a code point (`char::len_utf8`). -/
def utf8Len (c : Nat) : Nat :=
  if c < 128 then 1 else if c < 2048 then 2 else if c < 65536 then 3 else 4

/-- UTF-8 encoding of a code point (`char::encode_utf8`). -/
def utf8Encode (c : Nat) : List Nat :=
  if c < 128 then [c]
  else if c < 2048 then [192 + c / 64, 128 + c % 64]
  else if c < 65536 then [224 + c / 4096, 128 + c / 64 % 64, 128 + c % 64]
  else [240 + c / 262144, 128 + c / 4096 % 64, 128 + c / 64 % 64, 128 + c % 64]

/-- The UTF-8 bytes of a word (the `&str` contents, `word.as_bytes()`). -/
def wordBytes (w : List Nat) : List Nat :=
  w.flatMap utf8Encode

/-- Byte length of a word (`word.len()` on the `&str`). -/
def byteLen (w : List Nat) : Nat :=
  (w.map utf8Len).sum

/-- Whether a byte is a UTF-8 lead byte: `is_char_boundary` in `lib.rs`,
`(b as i8) >= -0x40`. -/
def isCharBoundary (b : Nat) : Bool :=
  decide (b < 128) || decide (192 ≤ b)

/-! ### The hyphenator of `lib.rs` -/

/-- The per-character conditional lowercasing done by `lowercase_and_dot`:
the lowercase mapping is applied only when it is a single code point of the
same UTF-8 length, else the character is kept verbatim. -/
def condLower (lower : Nat → List Nat) (c : Nat) : Nat :=
  match lower c with
  | [l] => if utf8Len l = utf8Len c then l else c
  | _ => c

/-- The dotted buffer built by `lowercase_and_dot`: a dot (byte 46), the
conditionally lowercased characters encoded in UTF-8, and a closing dot. -/
def lowercaseAndDot (lower : Nat → List Nat) (w : List Nat) : List Nat :=
  46 :: ((w.map (condLower lower)).flatMap utf8Encode ++ [46])

/-- The byte bounds in the dotted word computed by `char_to_byte_bounds`.
Both minima are clamped to at least 1 first. -/
def charToByteBounds (w : List Nat) (leftMin rightMin : Nat) : Nat × Nat :=
  (1 + ((w.take (max leftMin 1)).map utf8Len).sum,
   1 + byteLen w - ((w.reverse.take (max rightMin 1)).map utf8Len).sum)

/-- An automaton view of one language's pattern data: the root state, the
transition on a byte (`State::transition`) and the level entries of a state
(`State::levels`, already accumulated into pairs of cumulative offset and
level). -/
structure Automaton (σ : Type) where
  root : σ
  transition : σ → Nat → Option σ
  levelsOf : σ → List (Nat × Nat)

/-- The inner loop of `hyphenate_bounded` for one start offset: walk the trie
over the given byte suffix and collect the level entries of every state
entered.  The collected offsets are relative to the start of the walk. -/
def walkCollect {σ : Type} (A : Automaton σ) : σ → List Nat → List (Nat × Nat)
  | _, [] => []
  | s, b :: rest =>
    match A.transition s b with
    | none => []
    | some s2 => A.levelsOf s2 ++ walkCollect A s2 rest

/-- All level entries produced by the matching loop of `hyphenate_bounded`:
for every byte index of the dotted buffer that is a character boundary, the
entries of the walk starting there, with offsets shifted by the start. -/
def allEntries {σ : Type} (A : Automaton σ) (dotted : List Nat) : List (Nat × Nat) :=
  (List.range dotted.length).flatMap fun start =>
    if isCharBoundary (dotted.getD start 0) then
      (walkCollect A A.root (dotted.drop start)).map fun e => (start + e.1, e.2)
    else []

/-- One update of the levels array: when the split position lies between the
byte bounds, the slot at `split - 2` is raised to the maximum of its old value
and the entry's level.  Subtraction and `List.set` are on `Nat`, so the
out-of-range writes that would panic in Rust are modelled as no-ops; the
theorems below only concern in-range behaviour. -/
def applyEntry (minIdx maxIdx : Nat) (lv : List Nat) (e : Nat × Nat) : List Nat :=
  if minIdx ≤ e.1 ∧ e.1 ≤ maxIdx then
    lv.set (e.1 - 2) (max (lv.getD (e.1 - 2) 0) e.2)
  else lv

/-- The levels array computed by `hyphenate_bounded`: start from
`word.len().saturating_sub(1)` zeros and fold all matcher entries over it. -/
def computedLevels {σ : Type} (A : Automaton σ) (lower : Nat → List Nat)
    (w : List Nat) (leftMin rightMin : Nat) : List Nat :=
  (allEntries A (lowercaseAndDot lower w)).foldl
    (applyEntry (charToByteBounds w leftMin rightMin).1 (charToByteBounds w leftMin rightMin).2)
    (List.replicate (byteLen w - 1) 0)

/-- The state of the `Syllables` iterator: the original word's bytes, the
byte cursor, and the remaining levels. -/
structure Syllables where
  word : List Nat
  cursor : Nat
  levels : List Nat
deriving DecidableEq

/-- The `Syllables` iterator returned by `hyphenate_bounded`. -/
def hyphenateBounded {σ : Type} (A : Automaton σ) (lower : Nat → List Nat)
    (w : List Nat) (leftMin rightMin : Nat) : Syllables :=
  ⟨wordBytes w, 0, computedLevels A lower w leftMin rightMin⟩

/-- The effect of `self.levels.any(|lvl| lvl % 2 == 1)` on the `Bytes`
iterator: consume elements up to and including the first odd one, reporting
whether one was found. -/
def consumeOdd : List Nat → Bool × List Nat
  | [] => (false, [])
  | x :: rest => if x % 2 = 1 then (true, rest) else consumeOdd rest

/-- `Syllables::next`: consume levels to the next odd one, compute the end
position, advance the cursor and yield the slice when it is non-empty.  The
updated iterator state is returned alongside the yielded item. -/
def Syllables.next (s : Syllables) : Option (List Nat) × Syllables :=
  let fr := consumeOdd s.levels
  let e := s.word.length - fr.2.length - (if fr.1 then 1 else 0)
  (if s.cursor < e then some ((s.word.take e).drop s.cursor) else none,
   ⟨s.word, e, fr.2⟩)

/-- The sequence of items yielded by repeatedly calling `next` until it
returns `None`, bounded by fuel. -/
def yieldsFuel : Nat → Syllables → List (List Nat)
  | 0, _ => []
  | f + 1, s =>
    match s.next with
    | (none, _) => []
    | (some seg, s2) => seg :: yieldsFuel f s2

/-- All items the iterator yields; `levels.length + 1` calls always suffice. -/
def yieldsAll (s : Syllables) : List (List Nat) :=
  yieldsFuel (s.levels.length + 1) s

/-- `Syllables::join`: the first syllable, then separator plus syllable for
each further one. -/
def Syllables.join (s : Syllables) (sep : List Nat) : List Nat :=
  match yieldsAll s with
  | [] => []
  | x :: xs => x ++ xs.flatMap fun seg => sep ++ seg

/-- `Syllables::splits`: the number of odd values among the remaining levels. -/
def Syllables.splits (s : Syllables) : Nat :=
  (s.levels.filter fun lvl => lvl % 2 = 1).length

/-- `Syllables::size_hint` (both components are equal; the reported exact
length). -/
def Syllables.sizeHint (s : Syllables) : Nat :=
  if s.word.length = 0 then 0 else 1 + s.splits

/-- The number of odd values in a levels array (what `splits` counts). -/
def countOdd (lv : List Nat) : Nat :=
  (lv.filter fun x => x % 2 = 1).length

/-- The iterator state after a number of calls to `next`. -/
def stateAfter : Nat → Syllables → Syllables
  | 0, s => s
  | k + 1, s => stateAfter k s.next.2

/-- Indices of odd entries of a levels array. -/
def oddIndices (lv : List Nat) : List Nat :=
  (List.range lv.length).filter fun i => lv.getD i 0 % 2 = 1

/-- The byte positions inside the word at which the iterator breaks it: a
break lies after byte `i + 1` exactly when level `i` is odd. -/
def breakPositions (s : Syllables) : List Nat :=
  (oddIndices s.levels).map (· + 1)

/-- The end positions of the successive yielded syllables (the cursor after
each yielding call of `next`). -/
def sylEnds : Nat → Syllables → List Nat
  | 0, _ => []
  | f + 1, s =>
    match s.next with
    | (none, _) => []
    | (some _, s2) => s2.cursor :: sylEnds f s2

/-- Number of whole characters of the word that fit in its first `p` bytes. -/
def charsBefore : List Nat → Nat → Nat
  | [], _ => 0
  | c :: cs, p => if utf8Len c ≤ p then 1 + charsBefore cs (p - utf8Len c) else 0

/-- Number of whole characters of the word contained in its last
`byteLen w - p` bytes, i.e. after byte position `p`. -/
def charsAfter (w : List Nat) (p : Nat) : Nat :=
  charsBefore w.reverse (byteLen w - p)

/-! ### The `Bytes` workspace of `lib.rs` (no-`alloc` configuration) -/

/-- Whether `Bytes::zeros(len)` panics when the `alloc` feature is disabled:
the inline array holds 40 bytes. -/
def bytesZerosPanicsNoAlloc (len : Nat) : Bool :=
  decide (40 < len)

/-- Whether `hyphenate_bounded` panics on a word of the given byte length when
`alloc` is disabled: it allocates the dotted buffer of `word.len() + 2` bytes
in `lowercase_and_dot`, then the levels buffer of
`word.len().saturating_sub(1)` bytes. -/
def hyphenatePanicsNoAlloc (wordByteLen : Nat) : Bool :=
  bytesZerosPanicsNoAlloc (wordByteLen + 2) || bytesZerosPanicsNoAlloc (wordByteLen - 1)

/-! ### The trie builder of `trie.rs` -/

/-- A build-time trie node: transition labels, target node indices, and an
optional reference (offset, length) into the level table. -/
structure Node where
  trans : List Nat
  targets : List Nat
  levels : Option (Nat × Nat)
deriving DecidableEq, Inhabited, Repr

/-- The trie builder: root index, node arena, level table of
(distance, level) pairs. -/
structure TrieBuilder where
  root : Nat
  nodes : List Node
  levels : List (Nat × Nat)
deriving DecidableEq, Repr

/-- `TrieBuilder::new`: just the root node. -/
def TrieBuilder.new : TrieBuilder :=
  ⟨0, [default], []⟩

/-- The pattern walk of `TrieBuilder::insert`: digits append a
(distance, value) pair to the pattern's level vector and reset the distance;
letters follow or create a transition and increment the distance.  Returns
the updated arena, the terminal node index and the collected level vector. -/
def walkInsert : List Node → Nat → Nat → List (Nat × Nat) → List Nat →
    List Node × Nat × List (Nat × Nat)
  | nodes, state, _, lvls, [] => (nodes, state, lvls)
  | nodes, state, dist, lvls, b :: rest =>
    if 48 ≤ b ∧ b ≤ 57 then
      walkInsert nodes state 0 (lvls ++ [(dist, b - 48)]) rest
    else
      let nd := nodes.getD state default
      match nd.trans.findIdx? (· = b) with
      | some i => walkInsert nodes (nd.targets.getD i 0) (dist + 1) lvls rest
      | none =>
        let len := nodes.length
        let nodes2 :=
          nodes.set state { nd with trans := nd.trans ++ [b], targets := nd.targets ++ [len] }
            ++ [default]
        walkInsert nodes2 len (dist + 1) lvls rest

/-- The level-table interner scan of `TrieBuilder::insert`: the first offset
at which the new vector is a prefix of the table's tail, or the table length
when there is none. -/
def findIntern (tbl v : List (Nat × Nat)) : Nat :=
  match tbl with
  | [] => 0
  | x :: rest => if v.isPrefixOf (x :: rest) then 0 else 1 + findIntern rest v

/-- Modelled from the spec: the rule §4.3 describes for the interner — the
smallest position `p` such that the table's tail from `p` is a prefix of the
new vector `V`.  Stated only to compare with `findIntern`, the rule the code
implements. -/
def internSpecScan (tbl v : List (Nat × Nat)) : Nat :=
  match tbl with
  | [] => 0
  | x :: rest => if (x :: rest).isPrefixOf v then 0 else 1 + internSpecScan rest v

/-- `TrieBuilder::insert`: walk the pattern, intern the level vector, attach
the reference to the terminal node. -/
def TrieBuilder.insert (t : TrieBuilder) (pattern : List Nat) : TrieBuilder :=
  let res := walkInsert t.nodes 0 0 [] pattern
  let offset := findIntern t.levels res.2.2
  let levels2 := if offset = t.levels.length then t.levels ++ res.2.2 else t.levels
  let nd := res.1.getD res.2.1 default
  ⟨t.root, res.1.set res.2.1 { nd with levels := some (offset, res.2.2.length) }, levels2⟩

/-- Building a trie from a list of patterns. -/
def buildTrie (ps : List (List Nat)) : TrieBuilder :=
  ps.foldl TrieBuilder.insert TrieBuilder.new

/-- The structural-equality map of `TrieBuilder::compress`, as an association
list (the `HashMap` is only ever queried by whole-node equality). -/
abbrev CMap := List (Node × Nat)

/-- Lookup in the structural-equality map. -/
def cmapFind (m : CMap) (x : Node) : Option Nat :=
  match m with
  | [] => none
  | (y, j) :: rest => if y = x then some j else cmapFind rest x

mutual

/-- `TrieBuilder::compress_node`: compress the children in order, rewrite the
targets, then hash-cons the node.  The recursion is bounded by fuel; for
tries built by `insert` (whose targets always point to later nodes) a fuel of
`nodes.length` suffices. -/
def compressNode (old : List Node) : Nat → Nat → CMap × List Node → Nat × (CMap × List Node)
  | 0, _, st => (0, st)
  | fuel + 1, i, st =>
    let x := old.getD i default
    let res := compressTargets old fuel x.targets st
    let x2 := { x with targets := res.1 }
    match cmapFind res.2.1 x2 with
    | some j => (j, res.2)
    | none => (res.2.2.length, (res.2.1 ++ [(x2, res.2.2.length)], res.2.2 ++ [x2]))
termination_by fuel i st => (fuel, 0)

/-- The in-order rewriting of a node's target list during compression. -/
def compressTargets (old : List Node) : Nat → List Nat → CMap × List Node →
    List Nat × (CMap × List Node)
  | _, [], st => ([], st)
  | fuel, tg :: rest, st =>
    let r1 := compressNode old fuel tg st
    let r2 := compressTargets old fuel rest r1.2
    (r1.1 :: r2.1, r2.2)
termination_by fuel l st => (fuel, l.length + 1)

end

/-- `TrieBuilder::compress`: run `compress_node` on node 0 with an empty map
and replace the arena; the level table is untouched. -/
def TrieBuilder.compress (t : TrieBuilder) : TrieBuilder :=
  let res := compressNode t.nodes t.nodes.length 0 ([], [])
  ⟨res.1, res.2.2, t.levels⟩

/-- The transition function of the built trie, as the runtime
`State::transition` observes it: linear scan of the labels, then the target
at the found index. -/
def trieTransition (t : TrieBuilder) (i b : Nat) : Option Nat :=
  ((t.nodes.getD i default).trans.findIdx? (· = b)).map
    fun j => (t.nodes.getD i default).targets.getD j 0

/-- Accumulate the stored (distance, level) pairs into
(cumulative offset, level) pairs, as `State::levels` does. -/
def cumLevels : Nat → List (Nat × Nat) → List (Nat × Nat)
  | _, [] => []
  | acc, (d, l) :: rest => (acc + d, l) :: cumLevels (acc + d) rest

/-- The level entries of a trie node, read through its (offset, length)
reference into the level table. -/
def trieLevelsOf (t : TrieBuilder) (i : Nat) : List (Nat × Nat) :=
  match (t.nodes.getD i default).levels with
  | none => []
  | some r => cumLevels 0 ((t.levels.drop r.1).take r.2)

/-- The automaton a built trie denotes: what the matcher observes of it. -/
def trieAutomaton (t : TrieBuilder) : Automaton Nat :=
  ⟨t.root, trieTransition t, trieLevelsOf t⟩

/-- Well-formedness of a builder node arena, as `insert` maintains it: every
node's transition and target lists have equal length, and every target points
to a strictly later, valid node. -/
def WFnodes (nodes : List Node) : Prop :=
  ∀ i, i < nodes.length →
    (nodes.getD i default).trans.length = (nodes.getD i default).targets.length ∧
    ∀ tg ∈ (nodes.getD i default).targets, i < tg ∧ tg < nodes.length

/-- The arena built by `compress_node` is in post-order: every target of a
node points to a strictly earlier node. -/
def PostOrd (nodes : List Node) : Prop :=
  ∀ j, j < nodes.length → ∀ tg ∈ (nodes.getD j default).targets, tg < j

/-- Depth-bounded bisimilarity between a node of the old arena and a node of
the new arena: equal level references, equal transition labels, and pairwise
bisimilar children one level down. -/
def SemEqN (oldN newN : List Node) : Nat → Nat → Nat → Prop
  | 0, _, _ => True
  | n + 1, i, j =>
    (oldN.getD i default).levels = (newN.getD j default).levels ∧
    (oldN.getD i default).trans = (newN.getD j default).trans ∧
    (oldN.getD i default).targets.length = (newN.getD j default).targets.length ∧
    ∀ k, k < (oldN.getD i default).targets.length →
      SemEqN oldN newN n ((oldN.getD i default).targets.getD k 0)
        ((newN.getD j default).targets.getD k 0)

/-- The invariant of the hash-consing state of `compress_node`: every map
entry points at an equal node stored in the new arena, and the new arena is
in post-order. -/
def CInv (st : CMap × List Node) : Prop :=
  (∀ e ∈ st.1, e.2 < st.2.length ∧ st.2.getD e.2 default = e.1) ∧ PostOrd st.2

/-! ### The encoder address arithmetic of `TrieBuilder::encode` -/

/-- The extra count byte emitted when a node has 31 or more transitions. -/
def extraCount (n : Node) : Nat :=
  if 31 ≤ n.trans.length then 1 else 0

/-- The two level-reference bytes emitted when a node has levels. -/
def levelRefBytes (n : Node) : Nat :=
  if n.levels.isSome then 2 else 0

/-- The size estimate of a node in pass A of `encode`, with the worst-case
stride of 3: header, optional extended count, optional level reference, and
`(1 + 3)` bytes per transition. -/
def estSize (n : Node) : Nat :=
  1 + extraCount n + levelRefBytes n + 4 * n.trans.length

/-- The encoded size of a node once its stride is chosen. -/
def encSize (n : Node) (stride : Nat) : Nat :=
  1 + extraCount n + levelRefBytes n + (1 + stride) * n.trans.length

/-- Successive addresses of records of the given sizes, starting at `start`. -/
def addrList (start : Nat) : List Nat → List Nat
  | [] => []
  | s :: rest => start :: addrList (start + s) rest

/-- Pass A of `encode`: address estimates assuming stride 3, starting after
the 4 root-address bytes and the level table. -/
def estimates (t : TrieBuilder) : List Nat :=
  addrList (4 + t.levels.length)
    ((List.range t.nodes.length).map fun i => estSize (t.nodes.getD i default))

/-- `how_many_bytes`: bytes needed for a signed number — 1 for `i8`, 2 for
`i16`, 3 for the 24-bit signed range; the value 4 marks the panic case. -/
def bytesNeeded (d : Int) : Nat :=
  if -128 ≤ d ∧ d ≤ 127 then 1
  else if -32768 ≤ d ∧ d ≤ 32767 then 2
  else if -8388608 ≤ d ∧ d < 8388608 then 3
  else 4

/-- The estimate-based delta from node `i` to node `tg`. -/
def estDelta (t : TrieBuilder) (i tg : Nat) : Int :=
  ((estimates t).getD tg 0 : Int) - ((estimates t).getD i 0 : Int)

/-- Pass B stride selection: the maximum bytes needed over the node's target
deltas measured on the estimates, defaulting to 1 for a childless node. -/
def strideOf (t : TrieBuilder) (i : Nat) : Nat :=
  (((t.nodes.getD i default).targets.map fun tg => bytesNeeded (estDelta t i tg)).max?).getD 1

/-- The final addresses of pass B, computed with the chosen strides. -/
def finalAddrs (t : TrieBuilder) : List Nat :=
  addrList (4 + t.levels.length)
    ((List.range t.nodes.length).map fun i =>
      encSize (t.nodes.getD i default) (strideOf t i))

/-- The final delta from node `i` to node `tg`. -/
def finalDelta (t : TrieBuilder) (i tg : Nat) : Int :=
  ((finalAddrs t).getD tg 0 : Int) - ((finalAddrs t).getD i 0 : Int)

/-- Whether `to_be_bytes` can emit the number in the given stride without its
signed conversions failing: `i8::try_from` for stride 1, `i16::try_from` for
stride 2, the biased 24-bit range for stride 3. -/
def fitsInStride (d : Int) (stride : Nat) : Bool :=
  if stride = 1 then decide (-128 ≤ d ∧ d ≤ 127)
  else if stride = 2 then decide (-32768 ≤ d ∧ d ≤ 32767)
  else if stride = 3 then decide (-8388608 ≤ d ∧ d < 8388608)
  else false

/-- Hypothesis under which `encode` reaches the emit phase: every target is a
valid node index and every estimate-based delta is representable in at most
3 bytes (otherwise `how_many_bytes` already panics in the stride pass). -/
def encodeOkB (t : TrieBuilder) : Bool :=
  (List.range t.nodes.length).all fun i =>
    (t.nodes.getD i default).targets.all fun tg =>
      decide (tg < t.nodes.length) && decide (bytesNeeded (estDelta t i tg) ≤ 3)

/-! ### The TeX pattern scanner of `tex.rs` -/

/-- The closing-brace character, written numerically. -/
def rbraceChar : Char := Char.ofNat 125

/-- Rust `char::is_whitespace`: membership in the Unicode White_Space set. -/
def rustWhitespace (c : Char) : Bool :=
  [9, 10, 11, 12, 13, 32, 133, 160, 5760, 8192, 8193, 8194, 8195, 8196, 8197,
    8198, 8199, 8200, 8201, 8202, 8232, 8233, 8239, 8287, 12288].contains c.toNat

/-- Whether a character may appear inside a pattern: not the closing brace,
not a percent sign, not whitespace. -/
def patChar (c : Char) : Bool :=
  !(c == rbraceChar) && !(c == '%') && !(rustWhitespace c)

/-- The inner loop of `parse`, inside a patterns block: emit a maximal run of
pattern characters, then dispatch on the next character — a closing brace
ends the block, a percent sign skips a line comment, anything else (including
end of input) skips whitespace and loops.  Fuel bounds the loop; `none` means
the fuel ran out, i.e. the corresponding Rust loop has not terminated within
that many iterations. -/
def insideBlock : Nat → List Char → List (List Char) → Option (List Char × List (List Char))
  | 0, _, _ => none
  | fuel + 1, s, acc =>
    let pat := s.takeWhile patChar
    let s1 := s.dropWhile patChar
    let acc2 := if pat.isEmpty then acc else acc ++ [pat]
    match s1 with
    | [] => insideBlock fuel [] acc2
    | c :: rest =>
      if c == rbraceChar then some (rest, acc2)
      else if c == '%' then insideBlock fuel (rest.dropWhile fun d => !(d == '\n')) acc2
      else insideBlock fuel (rest.dropWhile rustWhitespace) acc2

/-- The outer loop of `parse`: a percent sign skips a line comment, a
backslash followed by the patterns opener enters the block, anything else is
ignored.  Returns the collected patterns, or `none` when the fuel ran out. -/
def parseOuter : Nat → List Char → List (List Char) → Option (List (List Char))
  | 0, _, _ => none
  | fuel + 1, [], acc => some acc
  | fuel + 1, c :: rest, acc =>
    if c == '%' then parseOuter fuel (rest.dropWhile fun d => !(d == '\n')) acc
    else if c == '\\' && (("patterns\x7b").toList).isPrefixOf rest then
      match insideBlock fuel (rest.drop 9) acc with
      | none => none
      | some r => parseOuter fuel r.1 r.2
    else parseOuter fuel rest acc

/-- `tex::parse` with fuel: `none` when the fuel ran out before the scanner
finished. -/
def parseTex (fuel : Nat) (s : List Char) : Option (List (List Char)) :=
  parseOuter fuel s []

/-- A concrete pattern source whose patterns block is never closed. -/
def unclosedInput : List Char :=
  ("\\patterns\x7ba").toList

/-! ## Theorems -/

/-! ### Basic facts about the UTF-8 embedding -/

/-- The encoding of a code point has exactly its UTF-8 length. -/
theorem utf8Encode_length (c : Nat) : (utf8Encode c).length = utf8Len c := by
  unfold utf8Encode utf8Len
  split <;> simp_all
  split <;> simp_all
  split <;> simp_all

/-- Every code point encodes to at least one byte. -/
theorem utf8Len_pos (c : Nat) : 1 ≤ utf8Len c := by
  unfold utf8Len
  split <;> simp_all
  split <;> simp_all
  split <;> simp_all

/-- The bytes of a word count its byte length. -/
theorem wordBytes_length (w : List Nat) : (wordBytes w).length = byteLen w := by
  unfold wordBytes byteLen
  rw [List.length_flatMap]
  congr 1
  simp [Function.comp, utf8Encode_length]

/-- A word has byte length zero exactly when it is empty. -/
theorem byteLen_eq_zero (w : List Nat) : byteLen w = 0 ↔ w = [] := by
  cases w with
  | nil => simp [byteLen]
  | cons c cs =>
    simp only [byteLen, List.map_cons, List.sum_cons, iff_false, reduceCtorEq]
    have := utf8Len_pos c
    omega

/-! ### The `Syllables` iterator: core lemmas -/

/-- When `consumeOdd` finds no odd level it has consumed everything. -/
theorem consumeOdd_false (lv : List Nat) (h : (consumeOdd lv).1 = false) :
    (consumeOdd lv).2 = [] ∧ countOdd lv = 0 := by
  induction lv with
  | nil => simp [consumeOdd, countOdd]
  | cons x rest ih =>
    by_cases hx : x % 2 = 1
    · simp [consumeOdd, hx] at h
    · simp only [consumeOdd, hx, if_neg, ite_false] at h ⊢
      have := ih h
      simp [countOdd, List.filter_cons, hx] at this ⊢
      exact this

/-- When some odd level exists, `consumeOdd` finds it, drops at least one
element, and removes exactly one odd level. -/
theorem consumeOdd_true (lv : List Nat) (h : 0 < countOdd lv) :
    (consumeOdd lv).1 = true ∧ (consumeOdd lv).2.length < lv.length ∧
      countOdd (consumeOdd lv).2 + 1 = countOdd lv := by
  induction lv with
  | nil => simp [countOdd] at h
  | cons x rest ih =>
    by_cases hx : x % 2 = 1
    · simp [consumeOdd, hx, countOdd, List.filter_cons]
    · have hcount : countOdd (x :: rest) = countOdd rest := by
        simp [countOdd, List.filter_cons, hx]
      rw [hcount] at h
      have := ih h
      simp only [consumeOdd, hx, ite_false, if_neg] at *
      refine ⟨this.1, ?_, by omega⟩
      have := this.2.1
      simp only [List.length_cons]
      omega

/-- An even level at the head does not change what `next` does. -/
theorem next_evenHead (w : List Nat) (c x : Nat) (rest : List Nat)
    (hx : ¬ x % 2 = 1) :
    Syllables.next ⟨w, c, x :: rest⟩ = Syllables.next ⟨w, c, rest⟩ := by
  simp [Syllables.next, consumeOdd, hx]

/-- From an exhausted state (cursor at the end, no levels) nothing more is
yielded. -/
theorem yieldsFuel_exhausted (f : Nat) (w : List Nat) :
    yieldsFuel f ⟨w, w.length, []⟩ = [] := by
  cases f with
  | zero => rfl
  | succ f => simp [yieldsFuel, Syllables.next, consumeOdd]

/-- Concatenating everything yielded from a live iterator state returns the
word from the cursor on. -/
theorem yieldsFuel_flatten (fuel : Nat) :
    ∀ lv w c, lv.length < fuel → c + lv.length < w.length →
      (yieldsFuel fuel ⟨w, c, lv⟩).flatten = w.drop c := by
  induction fuel with
  | zero => intro lv w c h; omega
  | succ f ih =>
    intro lv w c hf hc
    induction lv generalizing c with
    | nil =>
      have hcw : c < w.length := by omega
      simp only [yieldsFuel, Syllables.next, consumeOdd]
      simp only [List.length_nil, Nat.sub_zero, if_neg, ite_false, Bool.false_eq_true,
        Nat.sub_zero]
      rw [if_pos hcw]
      simp [yieldsFuel_exhausted, List.take_length]
    | cons x rest ihx =>
      by_cases hx : x % 2 = 1
      · -- odd head: one syllable ends right after this level
        have hrest : rest.length < f := by
          simp only [List.length_cons] at hf; omega
        have hcw : c < w.length - rest.length - 1 := by
          simp only [List.length_cons] at hc; omega
        simp only [yieldsFuel, Syllables.next, consumeOdd, hx, ite_true, if_pos]
        simp only [if_pos hcw]
        set e := w.length - rest.length - 1 with he
        have hce : c ≤ e := Nat.le_of_lt hcw
        have hew : e + rest.length < w.length := by
          simp only [List.length_cons] at hc; omega
        rw [List.flatten_cons, ih rest w e hrest hew]
        rw [List.drop_take]
        have : (w.drop c).take (e - c) ++ (w.drop c).drop (e - c) = w.drop c :=
          List.take_append_drop _ _
        rw [List.drop_drop] at this
        have hece : c + (e - c) = e := by omega
        rw [hece] at this
        exact this
      · -- even head: identical behaviour to the tail levels
        have : yieldsFuel (f + 1) ⟨w, c, x :: rest⟩ = yieldsFuel (f + 1) ⟨w, c, rest⟩ := by
          simp only [yieldsFuel, next_evenHead w c x rest hx]
        rw [this]
        apply ihx
        · simp only [List.length_cons] at hf; omega
        · simp only [List.length_cons] at hc; omega

/-- The number of items yielded from a live iterator state is one more than
the number of odd levels remaining. -/
theorem yieldsFuel_length (fuel : Nat) :
    ∀ lv w c, lv.length < fuel → c + lv.length < w.length →
      (yieldsFuel fuel ⟨w, c, lv⟩).length = 1 + countOdd lv := by
  induction fuel with
  | zero => intro lv w c h; omega
  | succ f ih =>
    intro lv w c hf hc
    induction lv generalizing c with
    | nil =>
      have hcw : c < w.length := by omega
      simp only [yieldsFuel, Syllables.next, consumeOdd]
      simp only [List.length_nil, Nat.sub_zero, ite_false, Bool.false_eq_true]
      rw [if_pos hcw]
      simp [yieldsFuel_exhausted, countOdd]
    | cons x rest ihx =>
      by_cases hx : x % 2 = 1
      · have hrest : rest.length < f := by
          simp only [List.length_cons] at hf; omega
        have hcw : c < w.length - rest.length - 1 := by
          simp only [List.length_cons] at hc; omega
        simp only [yieldsFuel, Syllables.next, consumeOdd, hx, ite_true, if_pos]
        simp only [if_pos hcw, List.length_cons]
        have hew : (w.length - rest.length - 1) + rest.length < w.length := by
          simp only [List.length_cons] at hc; omega
        rw [ih rest w _ hrest hew]
        simp [countOdd, List.filter_cons, hx]
        omega
      · have : yieldsFuel (f + 1) ⟨w, c, x :: rest⟩ = yieldsFuel (f + 1) ⟨w, c, rest⟩ := by
          simp only [yieldsFuel, next_evenHead w c x rest hx]
        rw [this]
        have hcount : countOdd (x :: rest) = countOdd rest := by
          simp [countOdd, List.filter_cons, hx]
        rw [hcount]
        apply ihx
        · simp only [List.length_cons] at hf; omega
        · simp only [List.length_cons] at hc; omega

/-- Folding matcher entries over a levels array preserves its length. -/
theorem foldl_applyEntry_length (mn mx : Nat) :
    ∀ (entries : List (Nat × Nat)) (lv : List Nat),
      (entries.foldl (applyEntry mn mx) lv).length = lv.length := by
  intro entries
  induction entries with
  | nil => intro lv; rfl
  | cons e rest ih =>
    intro lv
    rw [List.foldl_cons, ih]
    unfold applyEntry
    split <;> simp

/-- The levels array of `hyphenate_bounded` has `word.len() - 1` slots
(saturating at zero). -/
theorem computedLevels_length {σ : Type} (A : Automaton σ) (lower : Nat → List Nat)
    (w : List Nat) (leftMin rightMin : Nat) :
    (computedLevels A lower w leftMin rightMin).length = byteLen w - 1 := by
  unfold computedLevels
  rw [foldl_applyEntry_length]
  simp

/-- Joining with the empty separator is concatenation of the yields. -/
theorem join_nil_eq_flatten (s : Syllables) : s.join [] = (yieldsAll s).flatten := by
  unfold Syllables.join
  cases h : yieldsAll s with
  | nil => simp
  | cons x xs =>
    simp only [List.flatten_cons, List.nil_append]
    congr 1
    have hid : (fun seg : List Nat => seg) = id := rfl
    rw [hid, List.flatMap_id]

/-- C1, join identity: for every word, automaton and bounds, concatenating
the syllables yielded by `hyphenate_bounded` without a separator — which is
what `Syllables::join` with an empty separator returns — gives back the
word's bytes unchanged.  This covers `hyphenate`, which calls
`hyphenate_bounded` with the language's default bounds. -/
theorem c1_join_identity {σ : Type} (A : Automaton σ) (lower : Nat → List Nat)
    (w : List Nat) (leftMin rightMin : Nat) :
    (hyphenateBounded A lower w leftMin rightMin).join [] = wordBytes w := by
  rw [join_nil_eq_flatten]
  by_cases hw : w = []
  · subst hw
    have hlv : computedLevels A lower [] leftMin rightMin = [] := by
      have := computedLevels_length A lower [] leftMin rightMin
      simp [byteLen] at this
      exact this
    simp [hyphenateBounded, yieldsAll, hlv, yieldsFuel, Syllables.next, consumeOdd, wordBytes]
  · have hL : 1 ≤ byteLen w := by
      rcases Nat.eq_zero_or_pos (byteLen w) with h0 | h1
      · exact absurd ((byteLen_eq_zero w).mp h0) hw
      · exact h1
    have hlen := computedLevels_length A lower w leftMin rightMin
    have hwlen := wordBytes_length w
    unfold hyphenateBounded yieldsAll
    have := yieldsFuel_flatten ((computedLevels A lower w leftMin rightMin).length + 1)
      (computedLevels A lower w leftMin rightMin) (wordBytes w) 0
      (Nat.lt_succ_self _) (by omega)
    simpa using this

/-- C10, clamping of zero minima: a left or right minimum of zero is clamped
to one inside `char_to_byte_bounds`, so the produced iterator is identical. -/
theorem c10_zero_bounds_clamped {σ : Type} (A : Automaton σ) (lower : Nat → List Nat)
    (w : List Nat) (leftMin rightMin : Nat) :
    hyphenateBounded A lower w 0 rightMin = hyphenateBounded A lower w 1 rightMin ∧
      hyphenateBounded A lower w leftMin 0 = hyphenateBounded A lower w leftMin 1 := by
  constructor <;> simp [hyphenateBounded, computedLevels, charToByteBounds]

/-- Iterating `next` from a live state stays inside the word and removes one
odd level per step while any remain. -/
theorem stateAfter_spec :
    ∀ k lv (w : List Nat) c, c + lv.length < w.length → k ≤ countOdd lv →
      ∃ c2 lv2, stateAfter k ⟨w, c, lv⟩ = ⟨w, c2, lv2⟩ ∧
        c2 + lv2.length < w.length ∧ countOdd lv2 + k = countOdd lv := by
  intro k
  induction k with
  | zero => intro lv w c hc _; exact ⟨c, lv, rfl, hc, rfl⟩
  | succ k ih =>
    intro lv w c hc hk
    have hpos : 0 < countOdd lv := by omega
    obtain ⟨hfound, hlt, hcount⟩ := consumeOdd_true lv hpos
    have hstep : (Syllables.next ⟨w, c, lv⟩).2 =
        ⟨w, w.length - (consumeOdd lv).2.length - 1, (consumeOdd lv).2⟩ := by
      simp [Syllables.next, hfound]
    have hinv : (w.length - (consumeOdd lv).2.length - 1) + (consumeOdd lv).2.length
        < w.length := by omega
    have hk2 : k ≤ countOdd (consumeOdd lv).2 := by omega
    obtain ⟨c2, lv2, heq, hc2, hcnt2⟩ := ih (consumeOdd lv).2 w
      (w.length - (consumeOdd lv).2.length - 1) hinv hk2
    refine ⟨c2, lv2, ?_, hc2, by omega⟩
    show stateAfter k (Syllables.next ⟨w, c, lv⟩).2 = _
    rw [hstep, heq]

/-- C6, amended: the number of syllables yielded equals one plus the number
of odd computed levels for a non-empty word and zero for the empty word, and
`size_hint` reports exactly the number of syllables remaining at every point
at which at least one syllable remains.  (After the last syllable of a
non-empty word has been yielded, `size_hint` reports 1, not 0 — see the
counterexample.) -/
theorem c6_length_law_and_size_hint {σ : Type} (A : Automaton σ) (lower : Nat → List Nat)
    (w : List Nat) (leftMin rightMin : Nat) :
    ((yieldsAll (hyphenateBounded A lower w leftMin rightMin)).length =
      if w = [] then 0 else 1 + countOdd (computedLevels A lower w leftMin rightMin)) ∧
    (∀ k, k < (yieldsAll (hyphenateBounded A lower w leftMin rightMin)).length →
      (stateAfter k (hyphenateBounded A lower w leftMin rightMin)).sizeHint =
        (yieldsAll (hyphenateBounded A lower w leftMin rightMin)).length - k) := by
  by_cases hw : w = []
  · subst hw
    have hlv : computedLevels A lower [] leftMin rightMin = [] := by
      have := computedLevels_length A lower [] leftMin rightMin
      simp [byteLen] at this
      exact this
    constructor
    · simp [hyphenateBounded, yieldsAll, hlv, yieldsFuel, Syllables.next, consumeOdd, wordBytes]
    · intro k hk
      simp [hyphenateBounded, yieldsAll, hlv, yieldsFuel, Syllables.next, consumeOdd,
        wordBytes] at hk
  · have hL : 1 ≤ byteLen w := by
      rcases Nat.eq_zero_or_pos (byteLen w) with h0 | h1
      · exact absurd ((byteLen_eq_zero w).mp h0) hw
      · exact h1
    have hlen := computedLevels_length A lower w leftMin rightMin
    have hwlen := wordBytes_length w
    have hcountlen : (yieldsAll (hyphenateBounded A lower w leftMin rightMin)).length =
        1 + countOdd (computedLevels A lower w leftMin rightMin) := by
      unfold hyphenateBounded yieldsAll
      exact yieldsFuel_length _ _ _ 0 (Nat.lt_succ_self _) (by omega)
    constructor
    · rw [hcountlen, if_neg hw]
    · intro k hk
      rw [hcountlen] at hk
      have hk2 : k ≤ countOdd (computedLevels A lower w leftMin rightMin) := by omega
      obtain ⟨c2, lv2, heq, hc2, hcnt⟩ := stateAfter_spec k
        (computedLevels A lower w leftMin rightMin) (wordBytes w) 0 (by omega) hk2
      rw [hcountlen]
      unfold hyphenateBounded
      rw [heq]
      have hwpos : (wordBytes w).length ≠ 0 := by omega
      simp only [Syllables.sizeHint, Syllables.splits, hwpos, if_neg, ite_false]
      show 1 + countOdd lv2 = _
      omega

/-- C6, counterexample to the exact-size claim as stated: hyphenating the
word "ab" over the empty trie yields one syllable; after that syllable has
been yielded nothing remains, yet `size_hint` still reports 1. -/
theorem c6_size_hint_counterexample :
    (yieldsAll (stateAfter 1
      (hyphenateBounded (trieAutomaton TrieBuilder.new) (fun c => [c]) [97, 98] 1 1)) = []) ∧
    (stateAfter 1
      (hyphenateBounded (trieAutomaton TrieBuilder.new) (fun c => [c]) [97, 98] 1 1)).sizeHint
      = 1 := by
  decide

/-- The no-`alloc` panic of `hyphenate_bounded` happens exactly for words of
byte length greater than 38: the dotted buffer needs `word.len() + 2 ≤ 40`. -/
theorem hyphenatePanicsNoAlloc_iff (L : Nat) :
    hyphenatePanicsNoAlloc L = true ↔ 38 < L := by
  simp [hyphenatePanicsNoAlloc, bytesZerosPanicsNoAlloc]
  omega

/-- C2, failing input: a 39-byte word already panics in the no-heap
configuration (its dotted buffer needs 41 bytes, above the 40-byte inline
workspace), although 39 ≤ 41; the threshold the code implements is 38, not
the documented 41. -/
theorem c2_toolong_threshold :
    hyphenatePanicsNoAlloc 39 = true ∧ 39 ≤ 41 ∧
      hyphenatePanicsNoAlloc 38 = false ∧ hyphenatePanicsNoAlloc 42 = true := by
  decide

/-! ### C5: the left and right bounds are respected -/

/-- A zero-filled array has no odd entry. -/
theorem getD_replicate_zero (n i : Nat) : (List.replicate n (0 : Nat)).getD i 0 = 0 := by
  rw [List.getD_eq_getElem?_getD, List.getElem?_replicate]
  split <;> rfl

/-- One `applyEntry` step preserves the property that odd levels sit only at
slots whose split position lies between the bounds (for bounds at least 2). -/
theorem applyEntry_oddInv (mn mx : Nat) (hmn : 2 ≤ mn) (lv : List Nat) (e : Nat × Nat)
    (hlv : ∀ i, lv.getD i 0 % 2 = 1 → mn ≤ i + 2 ∧ i + 2 ≤ mx) :
    ∀ i, (applyEntry mn mx lv e).getD i 0 % 2 = 1 → mn ≤ i + 2 ∧ i + 2 ≤ mx := by
  intro i hodd
  unfold applyEntry at hodd
  split at hodd
  case isTrue hguard =>
    by_cases hij : e.1 - 2 = i
    · have he2 : 2 ≤ e.1 := le_trans hmn hguard.1
      have : i + 2 = e.1 := by omega
      omega
    · rw [List.getD_eq_getElem?_getD, List.getElem?_set_ne hij,
        ← List.getD_eq_getElem?_getD] at hodd
      exact hlv i hodd
  case isFalse => exact hlv i hodd

/-- The fold of all matcher entries preserves the bound property of odd
levels. -/
theorem foldl_applyEntry_oddInv (mn mx : Nat) (hmn : 2 ≤ mn) :
    ∀ (entries : List (Nat × Nat)) (lv : List Nat),
      (∀ i, lv.getD i 0 % 2 = 1 → mn ≤ i + 2 ∧ i + 2 ≤ mx) →
      ∀ i, (entries.foldl (applyEntry mn mx) lv).getD i 0 % 2 = 1 →
        mn ≤ i + 2 ∧ i + 2 ≤ mx := by
  intro entries
  induction entries with
  | nil => intro lv hlv; exact hlv
  | cons e rest ih =>
    intro lv hlv
    rw [List.foldl_cons]
    exact ih _ (applyEntry_oddInv mn mx hmn lv e hlv)

/-- Membership in `oddIndices` unfolded. -/
theorem mem_oddIndices (lv : List Nat) (i : Nat) :
    i ∈ oddIndices lv ↔ i < lv.length ∧ lv.getD i 0 % 2 = 1 := by
  simp [oddIndices, List.mem_filter, List.mem_range]

/-- If the first `k` characters fit in `p` bytes then at least `k` whole
characters fit in `p` bytes. -/
theorem charsBefore_ge :
    ∀ (w : List Nat) (k p : Nat), k ≤ w.length →
      ((w.take k).map utf8Len).sum ≤ p → k ≤ charsBefore w p := by
  intro w
  induction w with
  | nil =>
    intro k p hk _
    simp only [List.length_nil, Nat.le_zero] at hk
    omega
  | cons c cs ih =>
    intro k p hk hsum
    cases k with
    | zero => exact Nat.zero_le _
    | succ k =>
      rw [List.take_succ_cons, List.map_cons, List.sum_cons] at hsum
      have h1 : utf8Len c ≤ p := by omega
      unfold charsBefore
      rw [if_pos h1]
      have hk2 : k ≤ cs.length := by simpa using hk
      have := ih k (p - utf8Len c) hk2 (by omega)
      omega

/-- The byte length of a prefix never exceeds the byte length of the word. -/
theorem sum_take_le (l : List Nat) (k : Nat) :
    ((l.take k).map utf8Len).sum ≤ (l.map utf8Len).sum := by
  conv_rhs => rw [← List.take_append_drop k l]
  rw [List.map_append, List.sum_append]
  exact Nat.le_add_right _ _

/-- The byte length is invariant under reversal. -/
theorem byteLen_reverse (w : List Nat) : (w.reverse.map utf8Len).sum = byteLen w := by
  rw [List.map_reverse, List.sum_reverse]
  rfl

/-- For a non-empty word the left byte bound is at least 2. -/
theorem sum_take_pos (w : List Nat) (hw : w ≠ []) (l : Nat) :
    1 ≤ ((w.take (max l 1)).map utf8Len).sum := by
  cases w with
  | nil => exact absurd rfl hw
  | cons c cs =>
    have : max l 1 = (max l 1 - 1) + 1 := by omega
    rw [this, List.take_succ_cons, List.map_cons, List.sum_cons]
    have := utf8Len_pos c
    omega

/-- C5, prefix and suffix bounds: every break position produced by
`hyphenate_bounded` has at least `leftMin` whole characters before it and at
least `rightMin` whole characters after it (breaks at exactly those distances
remain permitted, which the `≤` expresses). -/
theorem c5_bounds_respected {σ : Type} (A : Automaton σ) (lower : Nat → List Nat)
    (w : List Nat) (leftMin rightMin p : Nat)
    (hp : p ∈ breakPositions (hyphenateBounded A lower w leftMin rightMin)) :
    leftMin ≤ charsBefore w p ∧ rightMin ≤ charsAfter w p := by
  unfold breakPositions hyphenateBounded at hp
  simp only [List.mem_map] at hp
  obtain ⟨i, hi, hpi⟩ := hp
  rw [mem_oddIndices] at hi
  obtain ⟨hilen, hiodd⟩ := hi
  rw [computedLevels_length] at hilen
  -- the word cannot be empty: the levels array would have no slots
  have hw : w ≠ [] := by
    intro h
    subst h
    simp [byteLen] at hilen
  have hL : 1 ≤ byteLen w := by
    rcases Nat.eq_zero_or_pos (byteLen w) with h0 | h1
    · exact absurd ((byteLen_eq_zero w).mp h0) hw
    · exact h1
  -- odd levels only occur between the byte bounds
  have hmn2 : 2 ≤ (charToByteBounds w leftMin rightMin).1 := by
    have := sum_take_pos w hw leftMin
    simp only [charToByteBounds]
    omega
  have hbound := foldl_applyEntry_oddInv
    (charToByteBounds w leftMin rightMin).1 (charToByteBounds w leftMin rightMin).2 hmn2
    (allEntries A (lowercaseAndDot lower w)) (List.replicate (byteLen w - 1) 0)
    (fun i h => absurd (getD_replicate_zero _ i ▸ h) (by omega)) i hiodd
  subst hpi
  constructor
  · -- left bound
    by_cases hlm : max leftMin 1 ≤ w.length
    · have hS : ((w.take (max leftMin 1)).map utf8Len).sum ≤ i + 1 := by
        have := hbound.1
        simp only [charToByteBounds] at this
        omega
      have := charsBefore_ge w (max leftMin 1) (i + 1) hlm hS
      have hle : leftMin ≤ max leftMin 1 := Nat.le_max_left _ _
      omega
    · -- the whole word fits left of the break: impossible, the break is interior
      exfalso
      have htake : w.take (max leftMin 1) = w :=
        List.take_of_length_le (by omega)
      have := hbound.1
      simp only [charToByteBounds, htake] at this
      have h2 : byteLen w ≤ i + 1 := by
        unfold byteLen
        omega
      omega
  · -- right bound
    have hT : ((w.reverse.take (max rightMin 1)).map utf8Len).sum ≤ byteLen w := by
      have := sum_take_le w.reverse (max rightMin 1)
      rw [byteLen_reverse] at this
      exact this
    have hTle : ((w.reverse.take (max rightMin 1)).map utf8Len).sum ≤ byteLen w - (i + 1) := by
      have := hbound.2
      simp only [charToByteBounds] at this
      omega
    unfold charsAfter
    by_cases hrm : max rightMin 1 ≤ w.length
    · have hrev : max rightMin 1 ≤ w.reverse.length := by simpa using hrm
      have := charsBefore_ge w.reverse (max rightMin 1) (byteLen w - (i + 1)) hrev hTle
      have hle : rightMin ≤ max rightMin 1 := Nat.le_max_left _ _
      omega
    · exfalso
      have htake : w.reverse.take (max rightMin 1) = w.reverse :=
        List.take_of_length_le (by simp; omega)
      rw [htake, byteLen_reverse] at hTle
      omega

/-- C5 at a concrete input: the single English-style pattern `a1b` splits the
word `ab` at byte position 1, which leaves one character on each side. -/
theorem c5_bounds_witness :
    (1 ∈ breakPositions (hyphenateBounded
      (trieAutomaton (TrieBuilder.new.insert [97, 49, 98])) (fun c => [c]) [97, 98] 1 1)) ∧
    1 ≤ charsBefore [97, 98] 1 ∧ 1 ≤ charsAfter [97, 98] 1 :=
  ⟨by decide,
   c5_bounds_respected (trieAutomaton (TrieBuilder.new.insert [97, 49, 98]))
     (fun c => [c]) [97, 98] 1 1 1 (by decide)⟩

/-! ### C4: the level-table interner -/

/-- C4, counterexample to the claim as stated: after inserting `a1b2` the
table is `[(1,1),(1,2)]`; inserting `x2y3` interns `V = [(1,2),(1,3)]`.  The
smallest `p` with `table[p..]` a prefix of `V` is `p = 1` (the tail
`[(1,2)]`), so the claim predicts the reference `(1, 2)` and no appended
bytes; the code instead appends `V` and stores `(2, 2)`, because its scan
requires `V` to be a prefix of `table[p..]`, not the other way around. -/
theorem c4_interner_counterexample :
    internSpecScan [(1, 1), (1, 2)] [(1, 2), (1, 3)] = 1 ∧
    (TrieBuilder.new.insert [97, 49, 98, 50]).levels = [(1, 1), (1, 2)] ∧
    (((TrieBuilder.new.insert [97, 49, 98, 50]).insert [120, 50, 121, 51]).nodes.getD 4
      default).levels = some (2, 2) ∧
    ((TrieBuilder.new.insert [97, 49, 98, 50]).insert [120, 50, 121, 51]).levels
      = [(1, 1), (1, 2), (1, 2), (1, 3)] ∧
    ¬ (((TrieBuilder.new.insert [97, 49, 98, 50]).insert [120, 50, 121, 51]).nodes.getD 4
      default).levels = some (internSpecScan [(1, 1), (1, 2)] [(1, 2), (1, 3)], 2) := by
  decide

/-- C4, amended: the interner scans for the smallest position `p` such that
the new vector `V` is a prefix of `table[p..]` (the converse direction of the
claim); when no such position below the table length exists it returns the
table length, at which `insert` appends `V`. -/
theorem c4_interner_amended (tbl v : List (Nat × Nat)) :
    findIntern tbl v ≤ tbl.length ∧
    (findIntern tbl v = tbl.length ∨ v.isPrefixOf (tbl.drop (findIntern tbl v)) = true) ∧
    (∀ q, q < findIntern tbl v → ¬ v.isPrefixOf (tbl.drop q) = true) := by
  induction tbl with
  | nil =>
    refine ⟨Nat.le_refl _, Or.inl rfl, ?_⟩
    intro q hq
    simp [findIntern] at hq
  | cons x rest ih =>
    by_cases hpre : v.isPrefixOf (x :: rest) = true
    · unfold findIntern
      rw [if_pos hpre]
      exact ⟨Nat.zero_le _, Or.inr (by simpa using hpre),
        fun q hq => absurd hq (Nat.not_lt_zero q)⟩
    · unfold findIntern
      rw [if_neg hpre]
      obtain ⟨h1, h2, h3⟩ := ih
      have hsucc : 1 + findIntern rest v = findIntern rest v + 1 := Nat.add_comm _ _
      refine ⟨?_, ?_, ?_⟩
      · simp only [List.length_cons]; omega
      · rcases h2 with h | h
        · left; simp only [List.length_cons]; omega
        · right
          rw [hsucc, List.drop_succ_cons]
          exact h
      · intro q hq
        cases q with
        | zero => simpa using hpre
        | succ q =>
          rw [List.drop_succ_cons]
          exact h3 q (by omega)

/-- C4 amended, applied at a concrete table: the vector `[(5,5)]` matches no
tail of `[(1,1)]`, so the scan returns the table length 1 and position 0 is
indeed not a match. -/
theorem c4_interner_amended_witness :
    findIntern [(1, 1)] [(5, 5)] ≤ 1 ∧
      ¬ ([((5 : Nat), (5 : Nat))].isPrefixOf (([((1 : Nat), (1 : Nat))]).drop 0)) = true :=
  ⟨(c4_interner_amended [(1, 1)] [(5, 5)]).1,
   (c4_interner_amended [(1, 1)] [(5, 5)]).2.2 0 (by decide)⟩

/-! ### C3: the scanner on an unclosed patterns block -/

/-- Once the scanner is exhausted inside a patterns block, the block loop
makes no progress: it spins forever, so no fuel suffices. -/
theorem insideBlock_nil (fuel : Nat) : ∀ acc, insideBlock fuel [] acc = none := by
  induction fuel with
  | zero => intro acc; rfl
  | succ f ih =>
    intro acc
    simp only [insideBlock, List.takeWhile_nil, List.dropWhile_nil, List.isEmpty_nil,
      ite_true, if_pos]
    exact ih acc

/-- Inside a patterns block holding only the pattern `a`, the loop emits the
pattern, reaches the end of input, and then spins forever. -/
theorem insideBlock_single (fuel : Nat) : ∀ acc, insideBlock fuel [Char.ofNat 97] acc = none := by
  cases fuel with
  | zero => intro acc; rfl
  | succ f =>
    intro acc
    have hstep : insideBlock (f + 1) [Char.ofNat 97] acc
        = insideBlock f [] (acc ++ [[Char.ofNat 97]]) := rfl
    rw [hstep]
    exact insideBlock_nil f _

/-- C3 fails on the code: on the unclosed input `\patterns` + opening brace +
`a`, the parse loop of `tex.rs` never terminates (no fuel is ever enough),
and in particular it cannot fail with any error — `parse` has no error
channel at all. -/
theorem c3_parse_unclosed_diverges : ∀ fuel, parseTex fuel unclosedInput = none := by
  intro fuel
  cases fuel with
  | zero => rfl
  | succ f =>
    have hstep : parseTex (f + 1) unclosedInput =
        (match insideBlock f [Char.ofNat 97] [] with
          | none => none
          | some r => parseOuter f r.1 r.2) := rfl
    rw [hstep, insideBlock_single f []]

/-! ### C9: case independence -/

/-- When the lowercase form is a single code point of the same UTF-8 length,
the conditional lowering applies it. -/
theorem condLower_eq (lower : Nat → List Nat) (c d : Nat)
    (h : lower c = [d]) (hlen : utf8Len d = utf8Len c) :
    condLower lower c = d := by
  simp [condLower, h, hlen]

/-- The conditional lowering never changes the UTF-8 length. -/
theorem utf8Len_condLower (lower : Nat → List Nat) (c : Nat) :
    utf8Len (condLower lower c) = utf8Len c := by
  unfold condLower
  split
  · split
    · omega
    · rfl
  · rfl

/-- Under the claim's proviso, Rust's `str::to_lowercase` of the word — one
lowercase sequence per character — is exactly the conditional lowering
character by character. -/
theorem flatMap_lower_eq_map (lower : Nat → List Nat) (w : List Nat)
    (h1 : ∀ c ∈ w, ∃ d, lower c = [d] ∧ utf8Len d = utf8Len c) :
    w.flatMap lower = w.map (condLower lower) := by
  induction w with
  | nil => rfl
  | cons c cs ih =>
    obtain ⟨d, hd, hlen⟩ := h1 c (List.mem_cons_self c cs)
    rw [List.flatMap_cons, List.map_cons, ih (fun x hx => h1 x (List.mem_cons_of_mem c hx)),
      condLower_eq lower c d hd hlen, hd]
    rfl

/-- On the word's characters the conditional lowering is idempotent, given
that lowercase forms are fixed points of the mapping. -/
theorem condLower_idem (lower : Nat → List Nat) (w : List Nat)
    (h1 : ∀ c ∈ w, ∃ d, lower c = [d] ∧ utf8Len d = utf8Len c)
    (h2 : ∀ c ∈ w, ∀ d, lower c = [d] → lower d = [d]) :
    (w.map (condLower lower)).map (condLower lower) = w.map (condLower lower) := by
  rw [List.map_map]
  apply List.map_congr_left
  intro c hc
  obtain ⟨d, hd, hlen⟩ := h1 c hc
  have hcd : condLower lower c = d := condLower_eq lower c d hd hlen
  have hdd : lower d = [d] := h2 c hc d hd
  simp only [Function.comp_apply, hcd]
  exact condLower_eq lower d d hdd rfl

/-- The UTF-8 lengths of the word are unchanged by the conditional
lowering. -/
theorem map_utf8Len_condLower (lower : Nat → List Nat) (w : List Nat) :
    (w.map (condLower lower)).map utf8Len = w.map utf8Len := by
  rw [List.map_map]
  apply List.map_congr_left
  intro c _
  exact utf8Len_condLower lower c

/-- The byte bounds only depend on the characters' UTF-8 lengths, which the
conditional lowering preserves. -/
theorem charToByteBounds_condLower (lower : Nat → List Nat) (w : List Nat)
    (leftMin rightMin : Nat) :
    charToByteBounds (w.map (condLower lower)) leftMin rightMin =
      charToByteBounds w leftMin rightMin := by
  have htake : ∀ k, (((w.map (condLower lower)).take k).map utf8Len).sum
      = ((w.take k).map utf8Len).sum := by
    intro k
    rw [← List.map_take, List.map_map]
    congr 1
    apply List.map_congr_left
    intro c _
    exact utf8Len_condLower lower c
  have hrev : ∀ k, (((w.map (condLower lower)).reverse.take k).map utf8Len).sum
      = ((w.reverse.take k).map utf8Len).sum := by
    intro k
    rw [← List.map_reverse, ← List.map_take, List.map_map]
    congr 1
    apply List.map_congr_left
    intro c _
    exact utf8Len_condLower lower c
  have hbl : byteLen (w.map (condLower lower)) = byteLen w := by
    unfold byteLen
    rw [map_utf8Len_condLower]
  unfold charToByteBounds
  rw [htake, hrev, hbl]

/-- The levels array `hyphenate_bounded` computes is the same for the word
and its conditionally lowercased image. -/
theorem computedLevels_condLower {σ : Type} (A : Automaton σ) (lower : Nat → List Nat)
    (w : List Nat) (leftMin rightMin : Nat)
    (h1 : ∀ c ∈ w, ∃ d, lower c = [d] ∧ utf8Len d = utf8Len c)
    (h2 : ∀ c ∈ w, ∀ d, lower c = [d] → lower d = [d]) :
    computedLevels A lower (w.map (condLower lower)) leftMin rightMin =
      computedLevels A lower w leftMin rightMin := by
  have hdot : lowercaseAndDot lower (w.map (condLower lower)) = lowercaseAndDot lower w := by
    unfold lowercaseAndDot
    rw [condLower_idem lower w h1 h2]
  have hbl : byteLen (w.map (condLower lower)) = byteLen w := by
    unfold byteLen
    rw [map_utf8Len_condLower]
  unfold computedLevels
  rw [charToByteBounds_condLower, hdot, hbl]

/-- C9, case independence: when every character of the word lowercases to a
single code point of the same UTF-8 length, and those lowercase forms are
themselves fixed points of the lowercase mapping (as Unicode's simple
lowercase mapping guarantees), hyphenating the word and hyphenating its
lowercased form produce the same break positions. -/
theorem c9_case_independence {σ : Type} (A : Automaton σ) (lower : Nat → List Nat)
    (w : List Nat) (leftMin rightMin : Nat)
    (h1 : ∀ c ∈ w, ∃ d, lower c = [d] ∧ utf8Len d = utf8Len c)
    (h2 : ∀ c ∈ w, ∀ d, lower c = [d] → lower d = [d]) :
    breakPositions (hyphenateBounded A lower (w.flatMap lower) leftMin rightMin) =
      breakPositions (hyphenateBounded A lower w leftMin rightMin) := by
  rw [flatMap_lower_eq_map lower w h1]
  show (oddIndices (computedLevels A lower (w.map (condLower lower)) leftMin rightMin)).map
      (· + 1) =
    (oddIndices (computedLevels A lower w leftMin rightMin)).map (· + 1)
  rw [computedLevels_condLower A lower w leftMin rightMin h1 h2]

/-- C9 applied at a concrete input: the word `Ab` with the mapping that sends
`A` (65) to `a` (97); both the word and its lowercased form `ab` break after
the first byte under the single pattern `a1b`. -/
theorem c9_case_independence_witness :
    breakPositions (hyphenateBounded (trieAutomaton (TrieBuilder.new.insert [97, 49, 98]))
      (fun c => if c = 65 then [97] else [c]) ([65, 98].flatMap
        (fun c => if c = 65 then [97] else [c])) 1 1) =
    breakPositions (hyphenateBounded (trieAutomaton (TrieBuilder.new.insert [97, 49, 98]))
      (fun c => if c = 65 then [97] else [c]) [65, 98] 1 1) :=
  c9_case_independence (trieAutomaton (TrieBuilder.new.insert [97, 49, 98]))
    (fun c => if c = 65 then [97] else [c]) [65, 98] 1 1
    (by
      intro c hc
      simp only [List.mem_cons, List.not_mem_nil, or_false] at hc
      rcases hc with rfl | rfl
      · exact ⟨97, rfl, rfl⟩
      · exact ⟨98, rfl, rfl⟩)
    (by
      intro c hc d hd
      simp only [List.mem_cons, List.not_mem_nil, or_false] at hc
      rcases hc with rfl | rfl
      · simp at hd
        subst hd
        rfl
      · simp at hd
        subst hd
        rfl)

/-! ### C8: stride selection never under-sizes -/

/-- Unfolded meaning of the `encodeOkB` check. -/
theorem encodeOkB_spec (t : TrieBuilder) (h : encodeOkB t = true) :
    ∀ i, i < t.nodes.length → ∀ tg ∈ (t.nodes.getD i default).targets,
      tg < t.nodes.length ∧ bytesNeeded (estDelta t i tg) ≤ 3 := by
  intro i hi tg htg
  unfold encodeOkB at h
  rw [List.all_eq_true] at h
  have := h i (List.mem_range.mpr hi)
  rw [List.all_eq_true] at this
  have := this tg htg
  simp only [Bool.and_eq_true, decide_eq_true_eq] at this
  exact this

/-- `how_many_bytes` needs at least one byte. -/
theorem bytesNeeded_pos (d : Int) : 1 ≤ bytesNeeded d := by
  unfold bytesNeeded
  split
  · omega
  · split
    · omega
    · split <;> omega

/-- A left fold of `max` is at least its seed. -/
theorem le_foldl_max_self (l : List Nat) : ∀ a, a ≤ l.foldl max a := by
  induction l with
  | nil => intro a; exact Nat.le_refl a
  | cons x xs ih =>
    intro a
    calc a ≤ max a x := Nat.le_max_left a x
    _ ≤ xs.foldl max (max a x) := ih (max a x)

/-- A left fold of `max` dominates every member. -/
theorem mem_le_foldl_max (l : List Nat) : ∀ a x, x ∈ l → x ≤ l.foldl max a := by
  induction l with
  | nil => intro a x hx; exact absurd hx (List.not_mem_nil x)
  | cons y ys ih =>
    intro a x hx
    rcases List.mem_cons.mp hx with rfl | hx
    · calc x ≤ max a x := Nat.le_max_right a x
      _ ≤ ys.foldl max (max a x) := le_foldl_max_self ys (max a x)
    · exact ih (max a y) x hx

/-- A left fold of `max` is below any common upper bound. -/
theorem foldl_max_le (l : List Nat) : ∀ a b, a ≤ b → (∀ x ∈ l, x ≤ b) → l.foldl max a ≤ b := by
  induction l with
  | nil => intro a b hab _; exact hab
  | cons y ys ih =>
    intro a b hab hall
    refine ih (max a y) b ?_ fun x hx => hall x (List.mem_cons_of_mem y hx)
    exact Nat.max_le.mpr ⟨hab, hall y (List.mem_cons_self y ys)⟩

/-- `l.max().unwrap_or(d)` is below a bound dominating the default and every
element. -/
theorem max?_getD_le (l : List Nat) (d b : Nat) (hd : d ≤ b) (h : ∀ x ∈ l, x ≤ b) :
    l.max?.getD d ≤ b := by
  cases l with
  | nil => exact hd
  | cons x xs =>
    simp only [List.max?, Option.getD_some]
    exact foldl_max_le xs x b (h x (List.mem_cons_self x xs)) fun y hy =>
      h y (List.mem_cons_of_mem x hy)

/-- Every element is below `l.max().unwrap_or(d)`. -/
theorem le_max?_getD (l : List Nat) (d x : Nat) (hx : x ∈ l) : x ≤ l.max?.getD d := by
  cases l with
  | nil => exact absurd hx (List.not_mem_nil x)
  | cons y ys =>
    simp only [List.max?, Option.getD_some]
    rcases List.mem_cons.mp hx with rfl | hx
    · exact le_foldl_max_self ys x
    · exact mem_le_foldl_max ys y x hx

/-- `l.max().unwrap_or(d)` is at least the default or some element. -/
theorem max?_getD_pos (l : List Nat) (d : Nat) (hd : 1 ≤ d) (h : ∀ x ∈ l, 1 ≤ x) :
    1 ≤ l.max?.getD d := by
  cases l with
  | nil => exact hd
  | cons y ys =>
    simp only [List.max?, Option.getD_some]
    exact le_trans (h y (List.mem_cons_self y ys)) (le_foldl_max_self ys y)

/-- The chosen stride is at least 1. -/
theorem strideOf_pos (t : TrieBuilder) (i : Nat) : 1 ≤ strideOf t i := by
  unfold strideOf
  apply max?_getD_pos _ _ (Nat.le_refl 1)
  intro x hx
  obtain ⟨tg, _, rfl⟩ := List.mem_map.mp hx
  exact bytesNeeded_pos _

/-- When the estimate pass panics nowhere, every chosen stride is at most 3. -/
theorem strideOf_le_three (t : TrieBuilder) (henc : encodeOkB t = true)
    (i : Nat) (hi : i < t.nodes.length) : strideOf t i ≤ 3 := by
  unfold strideOf
  apply max?_getD_le _ _ _ (by omega)
  intro x hx
  obtain ⟨tg, htg, rfl⟩ := List.mem_map.mp hx
  exact (encodeOkB_spec t henc i hi tg htg).2

/-- The bytes needed for one child's estimate delta never exceed the chosen
stride of its parent. -/
theorem bytesNeeded_le_strideOf (t : TrieBuilder) (i tg : Nat)
    (htg : tg ∈ (t.nodes.getD i default).targets) :
    bytesNeeded (estDelta t i tg) ≤ strideOf t i := by
  unfold strideOf
  exact le_max?_getD _ 1 _ (List.mem_map_of_mem _ htg)

/-- With a stride of at most 3, the final node size is bounded by the
worst-case estimate. -/
theorem encSize_le_estSize (n : Node) (stride : Nat) (h : stride ≤ 3) :
    encSize n stride ≤ estSize n := by
  unfold encSize estSize
  have : (1 + stride) * n.trans.length ≤ 4 * n.trans.length :=
    Nat.mul_le_mul_right _ (by omega)
  omega

/-- Element access into an address list is the start plus the preceding
sizes. -/
theorem addrList_getD :
    ∀ (L : List Nat) (start k : Nat), k < L.length →
      (addrList start L).getD k 0 = start + (L.take k).sum := by
  intro L
  induction L with
  | nil => intro start k hk; simp at hk
  | cons s rest ih =>
    intro start k hk
    cases k with
    | zero => simp [addrList]
    | succ k =>
      have hk2 : k < rest.length := by simpa using hk
      simp only [addrList, List.getD_cons_succ, List.take_succ_cons, List.map_cons,
        List.sum_cons]
      rw [ih (start + s) k hk2]
      omega

/-- Truncating the mapped range is mapping the shorter range. -/
theorem take_range_map (f : Nat → Nat) (len k : Nat) (hk : k ≤ len) :
    (((List.range len).map f).take k).sum = ((List.range k).map f).sum := by
  rw [← List.map_take, List.take_range, Nat.min_eq_left hk]

/-- Address difference as the sum of the sizes in between. -/
theorem addr_getD_split (f : Nat → Nat) (len start i j : Nat)
    (hij : i ≤ j) (hj : j < len) :
    (addrList start ((List.range len).map f)).getD j 0 =
      (addrList start ((List.range len).map f)).getD i 0 +
        ((List.range (j - i)).map fun k => f (i + k)).sum := by
  have hi : i < len := lt_of_le_of_lt hij hj
  have hlen : ((List.range len).map f).length = len := by simp
  rw [addrList_getD _ _ j (by omega), addrList_getD _ _ i (by omega),
    take_range_map f len j (by omega), take_range_map f len i (by omega)]
  have hsplit : List.range j = List.range i ++ (List.range (j - i)).map fun x => i + x := by
    conv_lhs => rw [show j = i + (j - i) from by omega]
    rw [List.range_add]
  rw [hsplit, List.map_append, List.sum_append, List.map_map]
  have hcomp : (f ∘ fun x => i + x) = fun k => f (i + k) := rfl
  rw [hcomp]
  omega

/-- Pointwise bounded sizes give bounded slice sums. -/
theorem slice_sum_le (g1 g2 : Nat → Nat) (len : Nat)
    (h : ∀ k, k < len → g1 k ≤ g2 k) (i m : Nat) (him : i + m ≤ len) :
    ((List.range m).map fun k => g1 (i + k)).sum ≤
      ((List.range m).map fun k => g2 (i + k)).sum := by
  apply List.sum_le_sum
  intro k hk
  have : k < m := List.mem_range.mp hk
  exact h (i + k) (by omega)

/-- A delta whose estimate needs at most the stride fits in the stride. -/
theorem fits_of_bytesNeeded (d : Int) (s : Nat) (h1 : 1 ≤ s) (h3 : s ≤ 3)
    (hb : bytesNeeded d ≤ s) : fitsInStride d s = true := by
  unfold bytesNeeded at hb
  unfold fitsInStride
  interval_cases s <;> split_ifs at hb ⊢ <;> simp_all <;> omega

/-- A delta lying between 0 and a fitting delta also fits. -/
theorem fits_between (d e : Int) (s : Nat) (he : fitsInStride e s = true)
    (hd : (0 ≤ d ∧ d ≤ e) ∨ (e ≤ d ∧ d ≤ 0)) : fitsInStride d s = true := by
  unfold fitsInStride at he ⊢
  split_ifs at he ⊢ <;> simp_all <;> omega

/-- C8, the stride chosen from the stride-3 estimates never under-sizes: for
every node `i` and child target `tg`, the final delta `addrs[tg] − addrs[i]`
fits in the stride chosen for node `i`, so the signed conversions of
`to_be_bytes` never fail during emission.  The hypothesis `encodeOkB` states
that `encode` survives its estimate pass (targets in range, estimate deltas
representable in 3 bytes). -/
theorem c8_stride_safe (t : TrieBuilder) (henc : encodeOkB t = true)
    (i tg : Nat) (hi : i < t.nodes.length)
    (htg : tg ∈ (t.nodes.getD i default).targets) :
    1 ≤ strideOf t i ∧ strideOf t i ≤ 3 ∧
      fitsInStride (finalDelta t i tg) (strideOf t i) = true := by
  obtain ⟨htglt, hbn⟩ := encodeOkB_spec t henc i hi tg htg
  have h1 := strideOf_pos t i
  have h3 := strideOf_le_three t henc i hi
  refine ⟨h1, h3, ?_⟩
  have hfit : fitsInStride (estDelta t i tg) (strideOf t i) = true :=
    fits_of_bytesNeeded _ _ h1 h3 (bytesNeeded_le_strideOf t i tg htg)
  have hpt : ∀ k, k < t.nodes.length →
      encSize (t.nodes.getD k default) (strideOf t k) ≤ estSize (t.nodes.getD k default) := by
    intro k hk
    exact encSize_le_estSize _ _ (strideOf_le_three t henc k hk)
  rcases le_or_lt i tg with hij | hij
  · -- forward target
    have hestSplit : (estimates t).getD tg 0 = (estimates t).getD i 0 +
        ((List.range (tg - i)).map fun k => estSize (t.nodes.getD (i + k) default)).sum := by
      unfold estimates
      exact addr_getD_split _ _ _ i tg hij htglt
    have hencSplit : (finalAddrs t).getD tg 0 = (finalAddrs t).getD i 0 +
        ((List.range (tg - i)).map fun k =>
          encSize (t.nodes.getD (i + k) default) (strideOf t (i + k))).sum := by
      unfold finalAddrs
      exact addr_getD_split _ _ _ i tg hij htglt
    have hsl : ((List.range (tg - i)).map fun k =>
          encSize (t.nodes.getD (i + k) default) (strideOf t (i + k))).sum ≤
        ((List.range (tg - i)).map fun k => estSize (t.nodes.getD (i + k) default)).sum :=
      slice_sum_le _ _ _ hpt i (tg - i) (by omega)
    apply fits_between _ (estDelta t i tg) _ hfit
    left
    unfold finalDelta estDelta
    rw [hestSplit, hencSplit]
    omega
  · -- backward target
    have hestSplit : (estimates t).getD i 0 = (estimates t).getD tg 0 +
        ((List.range (i - tg)).map fun k => estSize (t.nodes.getD (tg + k) default)).sum := by
      unfold estimates
      exact addr_getD_split _ _ _ tg i (by omega) hi
    have hencSplit : (finalAddrs t).getD i 0 = (finalAddrs t).getD tg 0 +
        ((List.range (i - tg)).map fun k =>
          encSize (t.nodes.getD (tg + k) default) (strideOf t (tg + k))).sum := by
      unfold finalAddrs
      exact addr_getD_split _ _ _ tg i (by omega) hi
    have hsl : ((List.range (i - tg)).map fun k =>
          encSize (t.nodes.getD (tg + k) default) (strideOf t (tg + k))).sum ≤
        ((List.range (i - tg)).map fun k => estSize (t.nodes.getD (tg + k) default)).sum :=
      slice_sum_le _ _ _ hpt tg (i - tg) (by omega)
    apply fits_between _ (estDelta t i tg) _ hfit
    right
    unfold finalDelta estDelta
    rw [hestSplit, hencSplit]
    omega

/-- C8 applied at a concrete trie: the one-pattern trie passes the estimate
check and the root-to-child delta fits its chosen stride. -/
theorem c8_stride_safe_witness :
    encodeOkB (TrieBuilder.new.insert [97, 49, 98]) = true ∧
      1 ≤ strideOf (TrieBuilder.new.insert [97, 49, 98]) 0 ∧
      strideOf (TrieBuilder.new.insert [97, 49, 98]) 0 ≤ 3 ∧
      fitsInStride (finalDelta (TrieBuilder.new.insert [97, 49, 98]) 0 1)
        (strideOf (TrieBuilder.new.insert [97, 49, 98]) 0) = true :=
  ⟨by decide,
   c8_stride_safe (TrieBuilder.new.insert [97, 49, 98]) (by decide) 0 1
     (by decide) (by decide)⟩

/-! ### C7: suffix compression preserves the matcher's language -/

/-- Element access at a valid index yields a member. -/
theorem getD_mem (l : List Nat) (k : Nat) (hk : k < l.length) : l.getD k 0 ∈ l := by
  rw [List.getD_eq_getElem?_getD, List.getElem?_eq_getElem hk]
  exact List.getElem_mem hk

/-- Appending a node at the end is read back at the old length. -/
theorem getD_append_length (l : List Node) (a : Node) :
    (l ++ [a]).getD l.length default = a := by
  induction l with
  | nil => rfl
  | cons x xs ih => simpa using ih

/-- Reading below the old length ignores an appended tail. -/
theorem getD_append_lt (l ext : List Node) (j : Nat) (hj : j < l.length) :
    (l ++ ext).getD j default = l.getD j default :=
  List.getD_append l ext default j hj

/-- A found transition index is within the label list. -/
theorem findIdx?_lt_length {p : Nat → Bool} {l : List Nat} {i : Nat}
    (h : l.findIdx? p = some i) : i < l.length :=
  (List.findIdx?_eq_some_iff_findIdx_eq.mp h).1

/-- One step of the pattern walk, unfolded. -/
theorem walkInsert_cons (nodes : List Node) (state dist : Nat) (lvls : List (Nat × Nat))
    (b : Nat) (rest : List Nat) :
    walkInsert nodes state dist lvls (b :: rest) =
      if 48 ≤ b ∧ b ≤ 57 then
        walkInsert nodes state 0 (lvls ++ [(dist, b - 48)]) rest
      else
        match (nodes.getD state default).trans.findIdx? (· = b) with
        | some i =>
          walkInsert nodes ((nodes.getD state default).targets.getD i 0) (dist + 1) lvls rest
        | none =>
          walkInsert
            (nodes.set state
              ⟨(nodes.getD state default).trans ++ [b],
               (nodes.getD state default).targets ++ [nodes.length],
               (nodes.getD state default).levels⟩ ++ [default])
            nodes.length (dist + 1) lvls rest := rfl

/-- Extending a node with a fresh transition to a fresh node keeps the arena
well formed. -/
theorem extend_wf (nodes : List Node) (state b : Nat)
    (hwf : WFnodes nodes) (hstate : state < nodes.length) :
    WFnodes (nodes.set state
      ⟨(nodes.getD state default).trans ++ [b],
       (nodes.getD state default).targets ++ [nodes.length],
       (nodes.getD state default).levels⟩ ++ [default]) := by
  have hsetlen : (nodes.set state
      ⟨(nodes.getD state default).trans ++ [b],
       (nodes.getD state default).targets ++ [nodes.length],
       (nodes.getD state default).levels⟩).length = nodes.length := List.length_set nodes _ _
  have hbiglen : (nodes.set state
      ⟨(nodes.getD state default).trans ++ [b],
       (nodes.getD state default).targets ++ [nodes.length],
       (nodes.getD state default).levels⟩ ++ [default]).length = nodes.length + 1 := by
    rw [List.length_append, hsetlen]
    rfl
  intro j hj
  rw [hbiglen] at hj
  by_cases hjn : j = nodes.length
  · subst hjn
    have hget := getD_append_length (nodes.set state
      ⟨(nodes.getD state default).trans ++ [b],
       (nodes.getD state default).targets ++ [nodes.length],
       (nodes.getD state default).levels⟩) default
    rw [hsetlen] at hget
    rw [hget]
    exact ⟨rfl, fun tg htg => absurd htg (List.not_mem_nil tg)⟩
  · have hjlt : j < nodes.length := by omega
    by_cases hjs : j = state
    · subst hjs
      have hget : (nodes.set j
          ⟨(nodes.getD j default).trans ++ [b],
           (nodes.getD j default).targets ++ [nodes.length],
           (nodes.getD j default).levels⟩ ++ [default]).getD j default =
          ⟨(nodes.getD j default).trans ++ [b],
           (nodes.getD j default).targets ++ [nodes.length],
           (nodes.getD j default).levels⟩ := by
        rw [getD_append_lt _ _ j (by rw [List.length_set]; exact hjlt),
          List.getD_eq_getElem?_getD, List.getElem?_set_self hjlt]
        rfl
      rw [hget]
      constructor
      · have := (hwf j hjlt).1
        simp only [List.length_append, List.length_cons, List.length_nil]
        omega
      · intro tg htg
        rw [hbiglen]
        rcases List.mem_append.mp htg with htg2 | htg2
        · have := (hwf j hjlt).2 tg htg2
          omega
        · simp only [List.mem_singleton] at htg2
          subst htg2
          omega
    · have hget : (nodes.set state
          ⟨(nodes.getD state default).trans ++ [b],
           (nodes.getD state default).targets ++ [nodes.length],
           (nodes.getD state default).levels⟩ ++ [default]).getD j default =
          nodes.getD j default := by
        rw [getD_append_lt _ _ j (by rw [List.length_set]; exact hjlt),
          List.getD_eq_getElem?_getD, List.getElem?_set_ne (fun h => hjs h.symm),
          ← List.getD_eq_getElem?_getD]
      rw [hget, hbiglen]
      refine ⟨(hwf j hjlt).1, fun tg htg => ?_⟩
      have := (hwf j hjlt).2 tg htg
      omega

/-- The pattern walk of `insert` preserves well-formedness, keeps the state
valid, and never shrinks the arena. -/
theorem walkInsert_wf :
    ∀ (pattern : List Nat) (nodes : List Node) (state dist : Nat)
      (lvls : List (Nat × Nat)),
      WFnodes nodes → state < nodes.length →
      WFnodes (walkInsert nodes state dist lvls pattern).1 ∧
        (walkInsert nodes state dist lvls pattern).2.1 <
          (walkInsert nodes state dist lvls pattern).1.length ∧
        nodes.length ≤ (walkInsert nodes state dist lvls pattern).1.length := by
  intro pattern
  induction pattern with
  | nil =>
    intro nodes state dist lvls hwf hstate
    exact ⟨hwf, hstate, Nat.le_refl _⟩
  | cons b rest ih =>
    intro nodes state dist lvls hwf hstate
    rw [walkInsert_cons]
    by_cases hdig : 48 ≤ b ∧ b ≤ 57
    · rw [if_pos hdig]
      exact ih nodes state 0 _ hwf hstate
    · rw [if_neg hdig]
      cases hfind : (nodes.getD state default).trans.findIdx? (· = b) with
      | some i =>
        simp only []
        have hlen := (hwf state hstate).1
        have hi : i < (nodes.getD state default).targets.length :=
          hlen ▸ findIdx?_lt_length hfind
        have hmem := getD_mem _ i hi
        exact ih nodes _ (dist + 1) lvls hwf ((hwf state hstate).2 _ hmem).2
      | none =>
        simp only []
        have hwf2 := extend_wf nodes state b hwf hstate
        have hlen2 : (nodes.set state
            ⟨(nodes.getD state default).trans ++ [b],
             (nodes.getD state default).targets ++ [nodes.length],
             (nodes.getD state default).levels⟩ ++ [default]).length
            = nodes.length + 1 := by
          rw [List.length_append, List.length_set]
          rfl
        have := ih _ nodes.length (dist + 1) lvls hwf2 (by omega)
        refine ⟨this.1, this.2.1, ?_⟩
        have := this.2.2
        omega

/-- `insert` preserves well-formedness, the zero root, and a non-empty
arena. -/
theorem insert_wf (t : TrieBuilder) (p : List Nat)
    (hwf : WFnodes t.nodes) (hne : 0 < t.nodes.length) (hroot : t.root = 0) :
    WFnodes (t.insert p).nodes ∧ 0 < (t.insert p).nodes.length ∧ (t.insert p).root = 0 := by
  obtain ⟨hwf1, hstate1, hmono⟩ := walkInsert_wf p t.nodes 0 0 [] hwf hne
  unfold TrieBuilder.insert
  refine ⟨?_, by simpa using Nat.lt_of_lt_of_le hne hmono, hroot⟩
  intro j hj
  simp only [List.length_set] at hj
  by_cases hjs : j = (walkInsert t.nodes 0 0 [] p).2.1
  · subst hjs
    have hget : ((walkInsert t.nodes 0 0 [] p).1.set (walkInsert t.nodes 0 0 [] p).2.1
        ⟨((walkInsert t.nodes 0 0 [] p).1.getD (walkInsert t.nodes 0 0 [] p).2.1 default).trans,
         ((walkInsert t.nodes 0 0 [] p).1.getD (walkInsert t.nodes 0 0 [] p).2.1 default).targets,
         some (findIntern t.levels (walkInsert t.nodes 0 0 [] p).2.2,
           (walkInsert t.nodes 0 0 [] p).2.2.length)⟩).getD
          (walkInsert t.nodes 0 0 [] p).2.1 default =
        ⟨((walkInsert t.nodes 0 0 [] p).1.getD (walkInsert t.nodes 0 0 [] p).2.1 default).trans,
         ((walkInsert t.nodes 0 0 [] p).1.getD (walkInsert t.nodes 0 0 [] p).2.1 default).targets,
         some (findIntern t.levels (walkInsert t.nodes 0 0 [] p).2.2,
           (walkInsert t.nodes 0 0 [] p).2.2.length)⟩ := by
      rw [List.getD_eq_getElem?_getD, List.getElem?_set_self hstate1]
      rfl
    rw [hget]
    refine ⟨(hwf1 _ hj).1, fun tg htgm => ?_⟩
    have := (hwf1 _ hj).2 tg htgm
    simpa using this
  · have hget : ((walkInsert t.nodes 0 0 [] p).1.set (walkInsert t.nodes 0 0 [] p).2.1
        ⟨((walkInsert t.nodes 0 0 [] p).1.getD (walkInsert t.nodes 0 0 [] p).2.1 default).trans,
         ((walkInsert t.nodes 0 0 [] p).1.getD (walkInsert t.nodes 0 0 [] p).2.1 default).targets,
         some (findIntern t.levels (walkInsert t.nodes 0 0 [] p).2.2,
           (walkInsert t.nodes 0 0 [] p).2.2.length)⟩).getD j default =
        (walkInsert t.nodes 0 0 [] p).1.getD j default := by
      rw [List.getD_eq_getElem?_getD, List.getElem?_set_ne (fun h => hjs h.symm),
        ← List.getD_eq_getElem?_getD]
    rw [hget]
    refine ⟨(hwf1 _ hj).1, fun tg htgm => ?_⟩
    have := (hwf1 _ hj).2 tg htgm
    simpa using this

/-- Every trie built from a pattern list is well formed with root 0. -/
theorem buildTrie_wf (ps : List (List Nat)) :
    WFnodes (buildTrie ps).nodes ∧ 0 < (buildTrie ps).nodes.length ∧
      (buildTrie ps).root = 0 := by
  unfold buildTrie
  induction ps using List.reverseRecOn with
  | nil =>
    rw [List.foldl_nil]
    refine ⟨?_, by simp [TrieBuilder.new], rfl⟩
    intro i hi
    simp only [TrieBuilder.new, List.length_cons, List.length_nil] at hi
    have : i = 0 := by omega
    subst this
    exact ⟨rfl, fun tg htg => absurd htg (List.not_mem_nil tg)⟩
  | append_singleton ps p ih =>
    rw [List.foldl_append, List.foldl_cons, List.foldl_nil]
    exact insert_wf _ p ih.1 ih.2.1 ih.2.2

/-- A member of a list is read back from some valid index. -/
theorem mem_targets_getD {l : List Nat} {x : Nat} (hx : x ∈ l) :
    ∃ k, k < l.length ∧ l.getD k 0 = x := by
  obtain ⟨n, hn, he⟩ := List.getElem_of_mem hx
  refine ⟨n, hn, ?_⟩
  rw [List.getD_eq_getElem?_getD, List.getElem?_eq_getElem hn]
  exact he

/-- A hit in the structural map is one of its entries. -/
theorem cmapFind_mem : ∀ (m : CMap) (x : Node) (j : Nat),
    cmapFind m x = some j → (x, j) ∈ m := by
  intro m
  induction m with
  | nil => intro x j h; simp [cmapFind] at h
  | cons e rest ih =>
    intro x j h
    obtain ⟨y, j2⟩ := e
    unfold cmapFind at h
    split at h
    · rename_i hyx
      subst hyx
      simp only [Option.some.injEq] at h
      subst h
      exact List.mem_cons_self _ _
    · exact List.mem_cons_of_mem _ (ih x j h)

/-- Bisimilarity with a node of the new arena survives appending further
nodes, because a post-ordered arena only reaches earlier indices. -/
theorem semEqN_append (oldN newN ext : List Node) (hpost : PostOrd newN) :
    ∀ n i j, j < newN.length → SemEqN oldN newN n i j → SemEqN oldN (newN ++ ext) n i j := by
  intro n
  induction n with
  | zero => intro i j _ _; trivial
  | succ n ih =>
    intro i j hj hsem
    simp only [SemEqN] at hsem ⊢
    obtain ⟨hlv, htrans, hlen, hch⟩ := hsem
    have hget : (newN ++ ext).getD j default = newN.getD j default := getD_append_lt _ _ j hj
    rw [hget]
    refine ⟨hlv, htrans, hlen, ?_⟩
    intro k hk
    have hkb : k < (newN.getD j default).targets.length := by omega
    have hmem := getD_mem _ k hkb
    have htlt := hpost j hj _ hmem
    exact ih _ _ (lt_trans htlt hj) (hch k hk)

/-- The empty-list equation of `compressTargets`. -/
theorem compressTargets_nil (old : List Node) (fuel : Nat) (st : CMap × List Node) :
    compressTargets old fuel [] st = ([], st) := by
  rw [compressTargets]

/-- The cons equation of `compressTargets`. -/
theorem compressTargets_cons (old : List Node) (fuel tg : Nat) (rest : List Nat)
    (st : CMap × List Node) :
    compressTargets old fuel (tg :: rest) st =
      ((compressNode old fuel tg st).1 ::
          (compressTargets old fuel rest (compressNode old fuel tg st).2).1,
        (compressTargets old fuel rest (compressNode old fuel tg st).2).2) := by
  rw [compressTargets]

/-- The successor-fuel equation of `compressNode`. -/
theorem compressNode_succ (old : List Node) (fuel i : Nat) (st : CMap × List Node) :
    compressNode old (fuel + 1) i st =
      match cmapFind (compressTargets old fuel (old.getD i default).targets st).2.1
          ⟨(old.getD i default).trans,
           (compressTargets old fuel (old.getD i default).targets st).1,
           (old.getD i default).levels⟩ with
      | some j => (j, (compressTargets old fuel (old.getD i default).targets st).2)
      | none =>
        ((compressTargets old fuel (old.getD i default).targets st).2.2.length,
          ((compressTargets old fuel (old.getD i default).targets st).2.1 ++
              [(⟨(old.getD i default).trans,
                 (compressTargets old fuel (old.getD i default).targets st).1,
                 (old.getD i default).levels⟩,
                (compressTargets old fuel (old.getD i default).targets st).2.2.length)],
            (compressTargets old fuel (old.getD i default).targets st).2.2 ++
              [⟨(old.getD i default).trans,
                (compressTargets old fuel (old.getD i default).targets st).1,
                (old.getD i default).levels⟩])) := by
  rw [compressNode]

/-- Soundness of the in-order child compression, assuming soundness of
single-node compression at the same fuel: the state only grows, its invariant
is kept, and each returned index is bisimilar to the corresponding child. -/
theorem compressTargets_sound (old : List Node) (fuel : Nat)
    (hnode : ∀ i st, i < old.length → old.length - i ≤ fuel → CInv st →
      (∃ ext, (compressNode old fuel i st).2.2 = st.2 ++ ext) ∧
      CInv (compressNode old fuel i st).2 ∧
      (compressNode old fuel i st).1 < (compressNode old fuel i st).2.2.length ∧
      (∀ n, SemEqN old (compressNode old fuel i st).2.2 n i (compressNode old fuel i st).1)) :
    ∀ (l : List Nat) (st : CMap × List Node),
      (∀ tg ∈ l, tg < old.length ∧ old.length - tg ≤ fuel) → CInv st →
      (∃ ext, (compressTargets old fuel l st).2.2 = st.2 ++ ext) ∧
      CInv (compressTargets old fuel l st).2 ∧
      (compressTargets old fuel l st).1.length = l.length ∧
      (∀ k, k < l.length →
        (compressTargets old fuel l st).1.getD k 0 <
            (compressTargets old fuel l st).2.2.length ∧
        (∀ n, SemEqN old (compressTargets old fuel l st).2.2 n (l.getD k 0)
          ((compressTargets old fuel l st).1.getD k 0))) := by
  intro l
  induction l with
  | nil =>
    intro st _ hinv
    rw [compressTargets_nil]
    exact ⟨⟨[], by simp⟩, hinv, rfl, fun k hk => absurd hk (by simp)⟩
  | cons tg rest ih =>
    intro st hl hinv
    rw [compressTargets_cons]
    obtain ⟨⟨ext1, hext1⟩, hinv1, hjlt, hsem1⟩ :=
      hnode tg st (hl tg (List.mem_cons_self tg rest)).1
        (hl tg (List.mem_cons_self tg rest)).2 hinv
    obtain ⟨⟨ext2, hext2⟩, hinv2, hlen2, hpt2⟩ :=
      ih (compressNode old fuel tg st).2
        (fun x hx => hl x (List.mem_cons_of_mem tg hx)) hinv1
    refine ⟨⟨ext1 ++ ext2, by rw [hext2, hext1, List.append_assoc]⟩, hinv2, by simp [hlen2], ?_⟩
    intro k hk
    cases k with
    | zero =>
      simp only [List.getD_cons_zero]
      constructor
      · rw [hext2, List.length_append]
        omega
      · intro n
        rw [hext2]
        exact semEqN_append old _ ext2 hinv1.2 n tg _ hjlt (hsem1 n)
    | succ k =>
      simp only [List.getD_cons_succ]
      have hk2 : k < rest.length := by simpa using hk
      exact hpt2 k hk2

/-- Soundness of `compress_node` on a well-formed arena, for sufficient fuel:
the new arena only grows, the hash-consing invariant is kept, and the
returned index is bisimilar at every depth to the compressed node. -/
theorem compressNode_sound (old : List Node) (hwf : WFnodes old) :
    ∀ (fuel i : Nat) (st : CMap × List Node),
      i < old.length → old.length - i ≤ fuel → CInv st →
      (∃ ext, (compressNode old fuel i st).2.2 = st.2 ++ ext) ∧
      CInv (compressNode old fuel i st).2 ∧
      (compressNode old fuel i st).1 < (compressNode old fuel i st).2.2.length ∧
      (∀ n, SemEqN old (compressNode old fuel i st).2.2 n i (compressNode old fuel i st).1) := by
  intro fuel
  induction fuel with
  | zero =>
    intro i st hi hf _
    omega
  | succ f ihf =>
    intro i st hi hf hinv
    have htargs := compressTargets_sound old f ihf (old.getD i default).targets st
      (fun tg htg => ⟨((hwf i hi).2 tg htg).2, by
        have := ((hwf i hi).2 tg htg).1
        omega⟩) hinv
    obtain ⟨⟨ext1, hext1⟩, hinv1, hlen1, hpt1⟩ := htargs
    rw [compressNode_succ]
    cases hfind : cmapFind (compressTargets old f (old.getD i default).targets st).2.1
        ⟨(old.getD i default).trans,
         (compressTargets old f (old.getD i default).targets st).1,
         (old.getD i default).levels⟩ with
    | some j =>
      simp only []
      have hj := hinv1.1 _ (cmapFind_mem _ _ _ hfind)
      refine ⟨⟨ext1, hext1⟩, hinv1, hj.1, ?_⟩
      intro n
      cases n with
      | zero => trivial
      | succ n =>
        simp only [SemEqN]
        rw [hj.2]
        refine ⟨rfl, rfl, hlen1.symm, ?_⟩
        intro k hk
        exact (hpt1 k hk).2 n
    | none =>
      simp only []
      refine ⟨⟨ext1 ++ [⟨(old.getD i default).trans,
          (compressTargets old f (old.getD i default).targets st).1,
          (old.getD i default).levels⟩], by rw [hext1, List.append_assoc]⟩, ?_, ?_, ?_⟩
      · constructor
        · intro e he
          rcases List.mem_append.mp he with he2 | he2
          · have := hinv1.1 e he2
            refine ⟨by
              simp only [List.length_append, List.length_cons, List.length_nil]
              omega, ?_⟩
            rw [getD_append_lt _ _ _ this.1]
            exact this.2
          · simp only [List.mem_singleton] at he2
            subst he2
            refine ⟨by
              simp only [List.length_append, List.length_cons, List.length_nil]
              omega, by rw [getD_append_length]⟩
        · intro j hj tg htg
          dsimp only at hj htg
          by_cases hjl : j < (compressTargets old f (old.getD i default).targets st).2.2.length
          · rw [getD_append_lt _ _ _ hjl] at htg
            exact hinv1.2 j hjl tg htg
          · have hjeq : j = (compressTargets old f (old.getD i default).targets st).2.2.length := by
              simp only [List.length_append, List.length_cons, List.length_nil] at hj
              omega
            subst hjeq
            rw [getD_append_length] at htg
            dsimp only at htg
            obtain ⟨k, hk, hkeq⟩ := mem_targets_getD htg
            rw [hlen1] at hk
            have := (hpt1 k hk).1
            omega
      · simp only [List.length_append, List.length_cons, List.length_nil]
        omega
      · intro n
        cases n with
        | zero => trivial
        | succ n =>
          simp only [SemEqN]
          rw [getD_append_length]
          refine ⟨rfl, rfl, hlen1.symm, ?_⟩
          intro k hk
          exact semEqN_append old _ _ hinv1.2 n _ _ (hpt1 k hk).1 ((hpt1 k hk).2 n)

/-- The cons equation of the matcher walk. -/
theorem walkCollect_cons {σ : Type} (A : Automaton σ) (s : σ) (b : Nat) (rest : List Nat) :
    walkCollect A s (b :: rest) =
      match A.transition s b with
      | none => []
      | some s2 => A.levelsOf s2 ++ walkCollect A s2 rest := by
  rw [walkCollect]

/-- The projections of the built trie's automaton. -/
theorem trieAutomaton_transition (t : TrieBuilder) :
    (trieAutomaton t).transition = trieTransition t := rfl

/-- The level view of the built trie's automaton. -/
theorem trieAutomaton_levelsOf (t : TrieBuilder) :
    (trieAutomaton t).levelsOf = trieLevelsOf t := rfl

/-- Bisimilar states of two built tries with the same level table produce
identical matcher walks. -/
theorem walkCollect_semEq (t t2 : TrieBuilder) (hlv : t2.levels = t.levels)
    (hwf : WFnodes t.nodes) :
    ∀ (bs : List Nat) (i j : Nat), i < t.nodes.length →
      (∀ n, SemEqN t.nodes t2.nodes n i j) →
      walkCollect (trieAutomaton t) i bs = walkCollect (trieAutomaton t2) j bs := by
  intro bs
  induction bs with
  | nil => intro i j _ _; rfl
  | cons b rest ih =>
    intro i j hi hsem
    have h1 := hsem 1
    simp only [SemEqN] at h1
    obtain ⟨_, htr, _, _⟩ := h1
    rw [walkCollect_cons, walkCollect_cons, trieAutomaton_transition, trieAutomaton_transition,
      trieAutomaton_levelsOf, trieAutomaton_levelsOf]
    unfold trieTransition
    rw [← htr]
    cases hfind : (t.nodes.getD i default).trans.findIdx? (· = b) with
    | none => simp [hfind]
    | some k =>
      simp only [hfind, Option.map_some']
      have hk : k < (t.nodes.getD i default).trans.length := findIdx?_lt_length hfind
      have hk2 : k < (t.nodes.getD i default).targets.length := by
        rw [← (hwf i hi).1]
        exact hk
      have hchild : ∀ n, SemEqN t.nodes t2.nodes n
          ((t.nodes.getD i default).targets.getD k 0)
          ((t2.nodes.getD j default).targets.getD k 0) := by
        intro n
        have := hsem (n + 1)
        simp only [SemEqN] at this
        exact this.2.2.2 k hk2
      have hchlt : (t.nodes.getD i default).targets.getD k 0 < t.nodes.length :=
        ((hwf i hi).2 _ (getD_mem _ k hk2)).2
      have hlevEq : trieLevelsOf t ((t.nodes.getD i default).targets.getD k 0)
          = trieLevelsOf t2 ((t2.nodes.getD j default).targets.getD k 0) := by
        unfold trieLevelsOf
        have h2 := hchild 1
        simp only [SemEqN] at h2
        rw [← h2.1, hlv]
      rw [hlevEq, ih _ _ hchlt hchild]

/-- C7, suffix compression preserves the matcher's language: for every trie
built by insertions and every word and bounds, the position-to-maximum-level
assignment (the levels array) computed by the matcher is identical before
and after `TrieBuilder::compress`. -/
theorem c7_compress_preserves_language (ps : List (List Nat)) (lower : Nat → List Nat)
    (w : List Nat) (leftMin rightMin : Nat) :
    computedLevels (trieAutomaton (buildTrie ps)) lower w leftMin rightMin =
      computedLevels (trieAutomaton (buildTrie ps).compress) lower w leftMin rightMin := by
  obtain ⟨hwf, hne, hroot⟩ := buildTrie_wf ps
  have hinv0 : CInv ([], []) :=
    ⟨fun e he => absurd he (List.not_mem_nil e), fun j hj => absurd hj (by simp)⟩
  have hsound := compressNode_sound (buildTrie ps).nodes hwf (buildTrie ps).nodes.length 0
    ([], []) hne (by omega) hinv0
  have hnodes : (buildTrie ps).compress.nodes =
      (compressNode (buildTrie ps).nodes (buildTrie ps).nodes.length 0 ([], [])).2.2 := rfl
  have hcroot : (buildTrie ps).compress.root =
      (compressNode (buildTrie ps).nodes (buildTrie ps).nodes.length 0 ([], [])).1 := rfl
  have hwalk : ∀ bs,
      walkCollect (trieAutomaton (buildTrie ps)) (trieAutomaton (buildTrie ps)).root bs =
        walkCollect (trieAutomaton (buildTrie ps).compress)
          (trieAutomaton (buildTrie ps).compress).root bs := by
    intro bs
    show walkCollect (trieAutomaton (buildTrie ps)) (buildTrie ps).root bs =
      walkCollect (trieAutomaton (buildTrie ps).compress) (buildTrie ps).compress.root bs
    apply walkCollect_semEq (buildTrie ps) (buildTrie ps).compress rfl hwf bs _ _
      (by omega)
    intro n
    rw [hroot, hnodes, hcroot]
    exact hsound.2.2.2 n
  unfold computedLevels
  congr 1
  unfold allEntries
  have hfun : (fun start =>
      if isCharBoundary ((lowercaseAndDot lower w).getD start 0) then
        (walkCollect (trieAutomaton (buildTrie ps)) (trieAutomaton (buildTrie ps)).root
            ((lowercaseAndDot lower w).drop start)).map fun e => (start + e.1, e.2)
      else []) = (fun start =>
      if isCharBoundary ((lowercaseAndDot lower w).getD start 0) then
        (walkCollect (trieAutomaton (buildTrie ps).compress)
            (trieAutomaton (buildTrie ps).compress).root
            ((lowercaseAndDot lower w).drop start)).map fun e => (start + e.1, e.2)
      else []) := by
    funext start
    rw [hwalk]
  rw [hfun]

/-- C6 applied at a concrete input: with the single pattern `a1b` the word
`ab` yields two syllables, and before iteration `size_hint` reports 2. -/
theorem c6_length_law_witness :
    ((yieldsAll (hyphenateBounded (trieAutomaton (TrieBuilder.new.insert [97, 49, 98]))
        (fun c => [c]) [97, 98] 1 1)).length =
      if ([97, 98] : List Nat) = [] then 0 else
        1 + countOdd (computedLevels (trieAutomaton (TrieBuilder.new.insert [97, 49, 98]))
          (fun c => [c]) [97, 98] 1 1)) ∧
    (stateAfter 0 (hyphenateBounded (trieAutomaton (TrieBuilder.new.insert [97, 49, 98]))
        (fun c => [c]) [97, 98] 1 1)).sizeHint =
      (yieldsAll (hyphenateBounded (trieAutomaton (TrieBuilder.new.insert [97, 49, 98]))
        (fun c => [c]) [97, 98] 1 1)).length - 0 :=
  ⟨(c6_length_law_and_size_hint (trieAutomaton (TrieBuilder.new.insert [97, 49, 98]))
      (fun c => [c]) [97, 98] 1 1).1,
   (c6_length_law_and_size_hint (trieAutomaton (TrieBuilder.new.insert [97, 49, 98]))
      (fun c => [c]) [97, 98] 1 1).2 0 (by decide)⟩

/-- Sanity of the scanner model on a well-formed input: two patterns are
emitted and the block closes. -/
theorem parseTex_wellformed_example :
    parseTex 100 (("\\patterns\x7ba b2c\x7d tail").toList) =
      some [("a").toList, ("b2c").toList] := by
  decide
